import Mathlib

/-!
Shallow embedding of the string-key CLHT hash table variants of the
`hashmap_bench` repository (files `src/clht_string/clht_str_ptr.hpp`,
`clht_str_inline.hpp`, `clht_str_tagged.hpp`, the pooled variant, and the
shared primitives in `clht_str_common.hpp`), together with proofs about the
claims of the specification.

Modelling conventions:
* byte strings are `List Nat` (each element one byte); the C functions take a
  `(const char*, size_t len)` pair where every caller passes the full string
  and its exact length, so the model takes the byte list and uses its length;
* machine integers are `Nat` with explicit `% 2 ^ w` at the places where the
  C code performs a narrowing cast (`static_cast<uint16_t>(len)`,
  `static_cast<uint8_t>(len)`, `static_cast<uint32_t>(offset)`, the atomic
  counter updates on `size_t`);
* a stored `const char*` key pointer is modelled by the byte list the pointer
  points at; the null pointer is modelled as `[]` (the engine only ever
  dereferences a stored pointer after a successful nonzero length comparison,
  and `strcmp_simd` does not touch its arguments when `len` is zero, so the
  two are observationally interchangeable);
* the per-chain spin lock is modelled separately (see `lockAcquirePtrFuel`
  and `lock_acquire_tagged`); the table operations model the single-writer
  path in which the lock acquisition succeeds, which is the semantics of any
  sequential execution;
* memory allocation is assumed to succeed (out-of-memory is out of scope).
-/

/-! ## Shared primitives (`clht_str_common.hpp`) -/

/-- `UINTPTR_MAX`, the NOT_FOUND sentinel of every lookup function. -/
def UINTPTR_MAX : Nat := 2 ^ 64 - 1

/-- One shift-xor round of the bytewise CRC-32 update:
`crc = (crc >> 1) ^ (0xEDB88320 & -(crc & 1))`.  The conditional form is
exactly the mask trick of the source (`-(crc & 1)` is all ones when the low
bit is set and zero otherwise). -/
def crc32_round (crc : Nat) : Nat :=
  if crc % 2 = 1 then (crc / 2) ^^^ 0xEDB88320 else crc / 2

/-- One byte of the CRC-32 update of `hash_str_crc32`:
`crc ^= byte; for (j = 0; j < 8; ++j) crc = (crc >> 1) ^ (0xEDB88320 & -(crc & 1));`. -/
def crc32_byte (crc b : Nat) : Nat :=
  let c := crc ^^^ (b % 256)
  crc32_round (crc32_round (crc32_round (crc32_round
    (crc32_round (crc32_round (crc32_round (crc32_round c)))))))

/-- `hash_str_crc32(str, len)`: `if (len == 0) return 0;` then a CRC over the
bytes with initial value `0xFFFFFFFF` and final xor `0xFFFFFFFF`.  This models
the portable byte-at-a-time branch of the function; the `__SSE4_2__` branch
computes a hardware CRC over the same byte sequence (with the CRC-32C
polynomial) chunk by chunk and shares the `len == 0` early return.  No theorem
below depends on which polynomial is used: the engine only ever compares hash
values for equality and masks them, and the single hash value the proofs need
concretely is `hash_str_crc32 [] = 0`, which holds in both branches. -/
def hash_str_crc32 (s : List Nat) : Nat :=
  if s.length = 0 then 0
  else (s.foldl crc32_byte 0xFFFFFFFF) ^^^ 0xFFFFFFFF

/-- `hash_string(str, len)`: dispatches to `hash_str_crc32`. -/
def hash_string (s : List Nat) : Nat := hash_str_crc32 s

/-- `strcmp_simd(s1, s2, len)`: returns 0 iff the first `len` bytes of the two
buffers agree (the source compares 32/16-byte blocks with a scalar tail and
returns the first byte difference; only the "is it 0" outcome is ever used,
and it is 0 exactly when all `len` bytes agree). -/
def strcmp_simd (s1 s2 : List Nat) (len : Nat) : Int :=
  if s1.take len = s2.take len then 0 else 1

/-- The bounded growth loop `size = 1; while (size < target) size <<= 1;`
shared by every `*_create` function, with explicit fuel.  The loop at most
doubles `size` once per iteration, so any fuel of at least `target` steps
computes the loop's result. -/
def growSize : Nat → Nat → Nat → Nat
  | 0, size, _ => size
  | fuel + 1, size, target => if size < target then growSize fuel (size * 2) target else size

/-! ## Spin locks

`lock_acquire` (pointer variant; the inline and pooled variants repeat the
same loop verbatim) retries the compare-and-swap while the lock byte is not
`LOCK_FREE`, returning `false` only when it observes `LOCK_RESIZE`.  With no
concurrent writer changing the byte, the loop's state never changes between
iterations, which the fuel-indexed model makes explicit: `none` means the loop
has not returned after `fuel` compare-and-swap attempts. -/

/-- `lock_acquire` of `clht_str_ptr.hpp`, fuel-indexed: one fuel unit per
compare-and-swap attempt on an unchanging lock byte.  `some b` means the
function returned `b`; `none` means it is still spinning after `fuel`
attempts. -/
def lockAcquirePtrFuel : Nat → Nat → Option Bool
  | 0, _ => none
  | fuel + 1, lockByte =>
    if lockByte = 0 then some true
    else if lockByte = 2 then some false
    else lockAcquirePtrFuel fuel lockByte

/-- The bounded spin loop of `lock_acquire_tagged`: each recursive step is one
compare-and-swap attempt on an unchanging lock byte; the budget starts at
10001 because the source admits 10000 failed increments of `attempts` before
the `++attempts > 10000` exit fires on the next failure. -/
def taggedSpin (lockByte : Nat) : Nat → Bool
  | 0 => false
  | n + 1 => if lockByte = 0 then true else taggedSpin lockByte n

/-- `lock_acquire_tagged` of `clht_str_tagged.hpp` (the same loop with the
same 10000-attempt bound appears as `ClhtStrF14V2::acquire_lock`): bounded
spin on the lock byte. -/
def lock_acquire_tagged (lockByte : Nat) : Bool :=
  taggedSpin lockByte 10001

/-! ## Pointer variant (`clht_str_ptr.hpp`) -/

/-- One slot of a `BucketPtr`: the parallel array entries
`key_hash[i]`, `key_ptr[i]`, `key_len[i]`, `val[i]` at one index. -/
structure SlotPtr where
  key_hash : Nat
  key_ptr : List Nat
  key_len : Nat
  val : Nat
deriving Repr, DecidableEq

/-- A zeroed slot (the state after `memset(…, 0, …)` and after removal). -/
def emptySlotPtr : SlotPtr := ⟨0, [], 0, 0⟩

/-- A `BucketPtr` seen through its slots; the `next` pointer is modelled by
list structure (a chain is the list of buckets linked through `next`). -/
structure BucketPtr where
  slots : List SlotPtr
deriving Repr, DecidableEq

/-- A freshly zero-initialized `BucketPtr` (`CLHT_STR_ENTRIES_PER_BUCKET = 3`). -/
def emptyBucketPtr : BucketPtr := ⟨List.replicate 3 emptySlotPtr⟩

/-- `HashtablePtr`: the bucket array, with each array cell expanded into the
chain of buckets reachable through `next`. -/
structure HashtablePtr where
  mask : Nat
  buckets : List (List BucketPtr)
  num_elements : Nat
deriving Repr, DecidableEq

/-- `hashtable_ptr_create(capacity, alloc)`: rounds the bucket count up with
the shared doubling loop (`while (size < capacity / 3) size <<= 1`) and
zero-initializes the array. -/
def hashtable_ptr_create (capacity : Nat) : HashtablePtr :=
  let size := growSize (capacity / 3 + 1) 1 (capacity / 3)
  { mask := size - 1
    buckets := List.replicate size [emptyBucketPtr]
    num_elements := 0 }

/-- The slot loop of `hashtable_ptr_put`: for each slot, first the
existing-key check (`key_hash == hash`, then length and `strcmp_simd`), then
the empty-slot check (`key_hash == 0`).  `some (slots, inserted)` means the
loop returned inside this bucket, with `inserted = true` on the empty-slot
path (which stores the key via the allocator and casts the length to
`uint16_t`) and `false` on the in-place update path. -/
def ptrPutSlots (h : Nat) (key : List Nat) (v : Nat) :
    List SlotPtr → Option (List SlotPtr × Bool)
  | [] => none
  | s :: rest =>
    if s.key_hash = h ∧ s.key_len = key.length ∧ strcmp_simd key s.key_ptr key.length = 0 then
      some ({ s with val := v } :: rest, false)
    else if s.key_hash = 0 then
      some ({ key_hash := h, key_ptr := key, key_len := key.length % 2 ^ 16, val := v } :: rest,
        true)
    else
      match ptrPutSlots h key v rest with
      | none => none
      | some (rest', inserted) => some (s :: rest', inserted)

/-- The bucket-chain loop of `hashtable_ptr_put`: walk the chain; when the
tail is reached without the slot loop returning, allocate a zeroed overflow
bucket and continue into it (where the slot loop always returns). -/
def ptrPutChain (h : Nat) (key : List Nat) (v : Nat) :
    List BucketPtr → List BucketPtr × Bool
  | [] =>
    match ptrPutSlots h key v emptyBucketPtr.slots with
    | some (slots', inserted) => ([⟨slots'⟩], inserted)
    | none => ([emptyBucketPtr], false)
  | b :: rest =>
    match ptrPutSlots h key v b.slots with
    | some (slots', inserted) => (⟨slots'⟩ :: rest, inserted)
    | none =>
      let r := ptrPutChain h key v rest
      (b :: r.1, r.2)

/-- `hashtable_ptr_put(ht, key, len, val)`: hash, index by `hash & mask`, walk
the chain; returns the table and the function's boolean result (`true` both on
update and on insert; the element counter is bumped only on insert, with the
`size_t` wrap made explicit). -/
def hashtable_ptr_put (ht : HashtablePtr) (key : List Nat) (v : Nat) :
    HashtablePtr × Bool :=
  let h := hash_string key
  let idx := h &&& ht.mask
  let r := ptrPutChain h key v (ht.buckets.getD idx [])
  ({ ht with
      buckets := ht.buckets.set idx r.1
      num_elements := if r.2 then (ht.num_elements + 1) % 2 ^ 64 else ht.num_elements },
    true)

/-- The slot loop of `hashtable_ptr_get`: hash comparison, then length and
content verification, then the early-termination check `key_hash == 0`.
`some v` means the loop returned `v` inside this bucket. -/
def ptrGetSlots (h : Nat) (key : List Nat) : List SlotPtr → Option Nat
  | [] => none
  | s :: rest =>
    if s.key_hash = h ∧ s.key_len = key.length ∧ strcmp_simd key s.key_ptr key.length = 0 then
      some s.val
    else if s.key_hash = 0 then
      some UINTPTR_MAX
    else
      ptrGetSlots h key rest

/-- The chain loop of `hashtable_ptr_get`. -/
def ptrGetChain (h : Nat) (key : List Nat) : List BucketPtr → Nat
  | [] => UINTPTR_MAX
  | b :: rest =>
    match ptrGetSlots h key b.slots with
    | some v => v
    | none => ptrGetChain h key rest

/-- `hashtable_ptr_get(ht, key, len)`: lock-free lookup; `UINTPTR_MAX` when
the key is not found. -/
def hashtable_ptr_get (ht : HashtablePtr) (key : List Nat) : Nat :=
  let h := hash_string key
  ptrGetChain h key (ht.buckets.getD (h &&& ht.mask) [])

/-- The slot loop of `hashtable_ptr_remove`: the full match condition in one
conjunction; on match the slot is zeroed (`key_hash = 0`, `key_ptr = nullptr`,
`key_len = 0`, `val = 0`). -/
def ptrRemoveSlots (h : Nat) (key : List Nat) : List SlotPtr → Option (List SlotPtr)
  | [] => none
  | s :: rest =>
    if s.key_hash = h ∧ s.key_len = key.length ∧ strcmp_simd key s.key_ptr key.length = 0 then
      some (emptySlotPtr :: rest)
    else
      match ptrRemoveSlots h key rest with
      | none => none
      | some rest' => some (s :: rest')

/-- The chain loop of `hashtable_ptr_remove`. -/
def ptrRemoveChain (h : Nat) (key : List Nat) : List BucketPtr → Option (List BucketPtr)
  | [] => none
  | b :: rest =>
    match ptrRemoveSlots h key b.slots with
    | some slots' => some (⟨slots'⟩ :: rest)
    | none =>
      match ptrRemoveChain h key rest with
      | none => none
      | some rest' => some (b :: rest')

/-- `hashtable_ptr_remove(ht, key, len)`: clears the matching slot and
decrements the element counter (`fetch_sub` on `size_t`, wrap explicit);
returns `false` when the key is absent. -/
def hashtable_ptr_remove (ht : HashtablePtr) (key : List Nat) :
    HashtablePtr × Bool :=
  let h := hash_string key
  let idx := h &&& ht.mask
  match ptrRemoveChain h key (ht.buckets.getD idx []) with
  | some chain' =>
    ({ ht with
        buckets := ht.buckets.set idx chain'
        num_elements := (ht.num_elements + (2 ^ 64 - 1)) % 2 ^ 64 },
      true)
  | none => (ht, false)

/-! ## Inline variant (`clht_str_inline.hpp`) -/

/-- `INLINE_STR_MAX_LEN`. -/
def INLINE_STR_MAX_LEN : Nat := 16

/-- One `BucketInline::Entry`: hash, the 16-byte inline key array, the
`uint8_t` length and the value. -/
structure SlotInline where
  hash : Nat
  key : List Nat
  length : Nat
  val : Nat
deriving Repr, DecidableEq

/-- A zero-initialized inline entry (16 zero bytes in the key array). -/
def emptySlotInline : SlotInline := ⟨0, List.replicate 16 0, 0, 0⟩

/-- A `BucketInline` (`INLINE_ENTRIES_PER_BUCKET = 2`). -/
structure BucketInline where
  entries : List SlotInline
deriving Repr, DecidableEq

/-- A freshly zero-initialized `BucketInline`. -/
def emptyBucketInline : BucketInline := ⟨List.replicate 2 emptySlotInline⟩

/-- `HashtableInline`. -/
structure HashtableInline where
  mask : Nat
  buckets : List (List BucketInline)
  num_elements : Nat
deriving Repr, DecidableEq

/-- `hashtable_inline_create(capacity)` (`while (size < capacity / 2) size <<= 1`). -/
def hashtable_inline_create (capacity : Nat) : HashtableInline :=
  let size := growSize (capacity / 2 + 1) 1 (capacity / 2)
  { mask := size - 1
    buckets := List.replicate size [emptyBucketInline]
    num_elements := 0 }

/-- `copy_key_inline(dest, src, len)`: zero the 16-byte destination, then copy
`min len 16` bytes of the source. -/
def copy_key_inline (src : List Nat) (len : Nat) : List Nat :=
  let copy_len := min len INLINE_STR_MAX_LEN
  src.take copy_len ++ List.replicate (INLINE_STR_MAX_LEN - copy_len) 0

/-- `compare_key_inline(stored, key, len, stored_len)`: length mismatch
short-circuits, then the length is clamped to the inline capacity and the
byte contents compared. -/
def compare_key_inline (stored key : List Nat) (len stored_len : Nat) : Bool :=
  if len ≠ stored_len then false
  else strcmp_simd stored key (min len INLINE_STR_MAX_LEN) = 0

/-- First pass of `hashtable_inline_put` over one bucket's entries: the
existing-key check (`hash`, `length`, `compare_key_inline`); on match the
value is updated in place. -/
def inlineUpdateSlots (h : Nat) (key : List Nat) (len v : Nat) :
    List SlotInline → Option (List SlotInline)
  | [] => none
  | s :: rest =>
    if s.hash = h ∧ s.length = len ∧ compare_key_inline s.key key len len then
      some ({ s with val := v } :: rest)
    else
      match inlineUpdateSlots h key len v rest with
      | none => none
      | some rest' => some (s :: rest')

/-- First pass of `hashtable_inline_put` over the chain. -/
def inlineUpdateChain (h : Nat) (key : List Nat) (len v : Nat) :
    List BucketInline → Option (List BucketInline)
  | [] => none
  | b :: rest =>
    match inlineUpdateSlots h key len v b.entries with
    | some entries' => some (⟨entries'⟩ :: rest)
    | none =>
      match inlineUpdateChain h key len v rest with
      | none => none
      | some rest' => some (b :: rest')

/-- Second pass of `hashtable_inline_put` over one bucket: insert into the
first empty entry (`hash == 0`), storing the copied key and the `uint8_t`
length cast. -/
def inlineInsertSlots (h : Nat) (key : List Nat) (len v : Nat) :
    List SlotInline → Option (List SlotInline)
  | [] => none
  | s :: rest =>
    if s.hash = 0 then
      some ({ hash := h, key := copy_key_inline key len, length := len % 2 ^ 8, val := v } :: rest)
    else
      match inlineInsertSlots h key len v rest with
      | none => none
      | some rest' => some (s :: rest')

/-- Second pass of `hashtable_inline_put` over the chain, allocating a zeroed
overflow bucket at the tail when no empty entry exists. -/
def inlineInsertChain (h : Nat) (key : List Nat) (len v : Nat) :
    List BucketInline → List BucketInline
  | [] =>
    match inlineInsertSlots h key len v emptyBucketInline.entries with
    | some entries' => [⟨entries'⟩]
    | none => [emptyBucketInline]
  | b :: rest =>
    match inlineInsertSlots h key len v b.entries with
    | some entries' => ⟨entries'⟩ :: rest
    | none => b :: inlineInsertChain h key len v rest

/-- `hashtable_inline_put(ht, key, len, val)`: lengths above the inline
capacity are truncated (`if (len > INLINE_STR_MAX_LEN) len = 16`) before
hashing; then the two passes. -/
def hashtable_inline_put (ht : HashtableInline) (key : List Nat) (v : Nat) :
    HashtableInline × Bool :=
  let len := min key.length INLINE_STR_MAX_LEN
  let h := hash_string (key.take len)
  let idx := h &&& ht.mask
  let chain := ht.buckets.getD idx []
  match inlineUpdateChain h key len v chain with
  | some chain' => ({ ht with buckets := ht.buckets.set idx chain' }, true)
  | none =>
    let chain' := inlineInsertChain h key len v chain
    ({ ht with
        buckets := ht.buckets.set idx chain'
        num_elements := (ht.num_elements + 1) % 2 ^ 64 },
      true)

/-- The slot loop of `hashtable_inline_get` (match check, then the
early-termination check `hash == 0`). -/
def inlineGetSlots (h : Nat) (key : List Nat) (len : Nat) : List SlotInline → Option Nat
  | [] => none
  | s :: rest =>
    if s.hash = h ∧ s.length = len ∧ compare_key_inline s.key key len len then
      some s.val
    else if s.hash = 0 then
      some UINTPTR_MAX
    else
      inlineGetSlots h key len rest

/-- The chain loop of `hashtable_inline_get`. -/
def inlineGetChain (h : Nat) (key : List Nat) (len : Nat) : List BucketInline → Nat
  | [] => UINTPTR_MAX
  | b :: rest =>
    match inlineGetSlots h key len b.entries with
    | some v => v
    | none => inlineGetChain h key len rest

/-- `hashtable_inline_get(ht, key, len)`: truncates the length, hashes the
(truncated) key and walks the chain. -/
def hashtable_inline_get (ht : HashtableInline) (key : List Nat) : Nat :=
  let len := min key.length INLINE_STR_MAX_LEN
  let h := hash_string (key.take len)
  inlineGetChain h key len (ht.buckets.getD (h &&& ht.mask) [])

/-- The slot loop of `hashtable_inline_remove`; on match the entry's hash,
length and value are cleared (the inline key bytes are left in place). -/
def inlineRemoveSlots (h : Nat) (key : List Nat) (len : Nat) :
    List SlotInline → Option (List SlotInline)
  | [] => none
  | s :: rest =>
    if s.hash = h ∧ s.length = len ∧ compare_key_inline s.key key len len then
      some ({ s with hash := 0, length := 0, val := 0 } :: rest)
    else
      match inlineRemoveSlots h key len rest with
      | none => none
      | some rest' => some (s :: rest')

/-- The chain loop of `hashtable_inline_remove`. -/
def inlineRemoveChain (h : Nat) (key : List Nat) (len : Nat) :
    List BucketInline → Option (List BucketInline)
  | [] => none
  | b :: rest =>
    match inlineRemoveSlots h key len b.entries with
    | some entries' => some (⟨entries'⟩ :: rest)
    | none =>
      match inlineRemoveChain h key len rest with
      | none => none
      | some rest' => some (b :: rest')

/-- `hashtable_inline_remove(ht, key, len)`. -/
def hashtable_inline_remove (ht : HashtableInline) (key : List Nat) :
    HashtableInline × Bool :=
  let len := min key.length INLINE_STR_MAX_LEN
  let h := hash_string (key.take len)
  let idx := h &&& ht.mask
  match inlineRemoveChain h key len (ht.buckets.getD idx []) with
  | some chain' =>
    ({ ht with
        buckets := ht.buckets.set idx chain'
        num_elements := (ht.num_elements + (2 ^ 64 - 1)) % 2 ^ 64 },
      true)
  | none => (ht, false)

/-! ## Pooled variant (Approach C, `ThreadSafeKeyPool` + `BucketPooled`) -/

/-- `ThreadSafeKeyPool`: `data_` is the byte buffer (only the first `used`
bytes are ever read back), `used` is `offset_`.  The capacity/doubling logic
only decides when `expand` runs; allocation failure can arise only from
out-of-memory inside `expand`, which the model assumes away. -/
structure KeyPool where
  data : List Nat
  used : Nat
deriving Repr, DecidableEq

/-- A freshly constructed pool. -/
def emptyKeyPool : KeyPool := ⟨[], 0⟩

/-- `ThreadSafeKeyPool::alloc(str, len)`: `alloc_size = (len + 1 + 7) & ~7`
(the null terminator plus padding to an 8-byte boundary), append, return the
old offset cast to `uint32_t`. -/
def poolAlloc (p : KeyPool) (key : List Nat) : KeyPool × Nat :=
  let alloc_size := (key.length + 1 + 7) / 8 * 8
  ({ data := p.data ++ key ++ List.replicate (alloc_size - key.length) 0
     used := p.used + alloc_size },
    p.used % 2 ^ 32)

/-- `ThreadSafeKeyPool::get(offset)`: null when `offset >= offset_`, otherwise
the buffer at that offset. -/
def poolGet (p : KeyPool) (offset : Nat) : Option (List Nat) :=
  if p.used ≤ offset then none else some (p.data.drop offset)

/-- One `BucketPooled::KeyInfo` together with its value (`vals[i]`). -/
structure SlotPooled where
  hash : Nat
  offset : Nat
  length : Nat
  val : Nat
deriving Repr, DecidableEq

/-- A zeroed pooled slot. -/
def emptySlotPooled : SlotPooled := ⟨0, 0, 0, 0⟩

/-- A `BucketPooled` (`POOLED_ENTRIES_PER_BUCKET = 3`). -/
structure BucketPooled where
  keys : List SlotPooled
deriving Repr, DecidableEq

/-- A freshly zero-initialized `BucketPooled`. -/
def emptyBucketPooled : BucketPooled := ⟨List.replicate 3 emptySlotPooled⟩

/-- `HashtablePooled`, owning its pool. -/
structure HashtablePooled where
  mask : Nat
  buckets : List (List BucketPooled)
  num_elements : Nat
  pool : KeyPool
deriving Repr, DecidableEq

/-- `hashtable_pooled_create(capacity, pool)` (`while (size < capacity / 3)`). -/
def hashtable_pooled_create (capacity : Nat) : HashtablePooled :=
  let size := growSize (capacity / 3 + 1) 1 (capacity / 3)
  { mask := size - 1
    buckets := List.replicate size [emptyBucketPooled]
    num_elements := 0
    pool := emptyKeyPool }

/-- The pooled match condition: `keys[i].hash == hash`, then
`stored = pool->get(offset)` must be non-null, the length field must equal
the argument length, and the bytes must agree. -/
def pooledMatches (pool : KeyPool) (h : Nat) (key : List Nat) (s : SlotPooled) : Prop :=
  s.hash = h ∧
    match poolGet pool s.offset with
    | none => False
    | some stored => s.length = key.length ∧ strcmp_simd key stored key.length = 0

instance (pool : KeyPool) (h : Nat) (key : List Nat) (s : SlotPooled) :
    Decidable (pooledMatches pool h key s) := by
  unfold pooledMatches
  cases poolGet pool s.offset <;> simp <;> infer_instance

/-- First pass of `hashtable_pooled_put` over one bucket. -/
def pooledUpdateSlots (pool : KeyPool) (h : Nat) (key : List Nat) (v : Nat) :
    List SlotPooled → Option (List SlotPooled)
  | [] => none
  | s :: rest =>
    if pooledMatches pool h key s then
      some ({ s with val := v } :: rest)
    else
      match pooledUpdateSlots pool h key v rest with
      | none => none
      | some rest' => some (s :: rest')

/-- First pass of `hashtable_pooled_put` over the chain. -/
def pooledUpdateChain (pool : KeyPool) (h : Nat) (key : List Nat) (v : Nat) :
    List BucketPooled → Option (List BucketPooled)
  | [] => none
  | b :: rest =>
    match pooledUpdateSlots pool h key v b.keys with
    | some keys' => some (⟨keys'⟩ :: rest)
    | none =>
      match pooledUpdateChain pool h key v rest with
      | none => none
      | some rest' => some (b :: rest')

/-- Second pass of `hashtable_pooled_put` over one bucket: first empty slot
(`hash == 0`), storing the pool offset and the `uint16_t` length cast. -/
def pooledInsertSlots (h : Nat) (offset : Nat) (len v : Nat) :
    List SlotPooled → Option (List SlotPooled)
  | [] => none
  | s :: rest =>
    if s.hash = 0 then
      some ({ hash := h, offset := offset, length := len % 2 ^ 16, val := v } :: rest)
    else
      match pooledInsertSlots h offset len v rest with
      | none => none
      | some rest' => some (s :: rest')

/-- Second pass of `hashtable_pooled_put` over the chain. -/
def pooledInsertChain (h : Nat) (offset : Nat) (len v : Nat) :
    List BucketPooled → List BucketPooled
  | [] =>
    match pooledInsertSlots h offset len v emptyBucketPooled.keys with
    | some keys' => [⟨keys'⟩]
    | none => [emptyBucketPooled]
  | b :: rest =>
    match pooledInsertSlots h offset len v b.keys with
    | some keys' => ⟨keys'⟩ :: rest
    | none => b :: pooledInsertChain h offset len v rest

/-- `hashtable_pooled_put(ht, key, len, val)`: existing-key pass, then pool
allocation, then the empty-slot pass. -/
def hashtable_pooled_put (ht : HashtablePooled) (key : List Nat) (v : Nat) :
    HashtablePooled × Bool :=
  let h := hash_string key
  let idx := h &&& ht.mask
  let chain := ht.buckets.getD idx []
  match pooledUpdateChain ht.pool h key v chain with
  | some chain' => ({ ht with buckets := ht.buckets.set idx chain' }, true)
  | none =>
    let ar := poolAlloc ht.pool key
    let chain' := pooledInsertChain h ar.2 key.length v chain
    ({ ht with
        buckets := ht.buckets.set idx chain'
        num_elements := (ht.num_elements + 1) % 2 ^ 64
        pool := ar.1 },
      true)

/-- The slot loop of `hashtable_pooled_get` (match, then early termination on
`hash == 0`). -/
def pooledGetSlots (pool : KeyPool) (h : Nat) (key : List Nat) :
    List SlotPooled → Option Nat
  | [] => none
  | s :: rest =>
    if pooledMatches pool h key s then some s.val
    else if s.hash = 0 then some UINTPTR_MAX
    else pooledGetSlots pool h key rest

/-- The chain loop of `hashtable_pooled_get`. -/
def pooledGetChain (pool : KeyPool) (h : Nat) (key : List Nat) : List BucketPooled → Nat
  | [] => UINTPTR_MAX
  | b :: rest =>
    match pooledGetSlots pool h key b.keys with
    | some v => v
    | none => pooledGetChain pool h key rest

/-- `hashtable_pooled_get(ht, key, len)`. -/
def hashtable_pooled_get (ht : HashtablePooled) (key : List Nat) : Nat :=
  let h := hash_string key
  pooledGetChain ht.pool h key (ht.buckets.getD (h &&& ht.mask) [])

/-- The slot loop of `hashtable_pooled_remove`; pool memory is not reclaimed. -/
def pooledRemoveSlots (pool : KeyPool) (h : Nat) (key : List Nat) :
    List SlotPooled → Option (List SlotPooled)
  | [] => none
  | s :: rest =>
    if pooledMatches pool h key s then
      some (emptySlotPooled :: rest)
    else
      match pooledRemoveSlots pool h key rest with
      | none => none
      | some rest' => some (s :: rest')

/-- The chain loop of `hashtable_pooled_remove`. -/
def pooledRemoveChain (pool : KeyPool) (h : Nat) (key : List Nat) :
    List BucketPooled → Option (List BucketPooled)
  | [] => none
  | b :: rest =>
    match pooledRemoveSlots pool h key b.keys with
    | some keys' => some (⟨keys'⟩ :: rest)
    | none =>
      match pooledRemoveChain pool h key rest with
      | none => none
      | some rest' => some (b :: rest')

/-- `hashtable_pooled_remove(ht, key, len)`. -/
def hashtable_pooled_remove (ht : HashtablePooled) (key : List Nat) :
    HashtablePooled × Bool :=
  let h := hash_string key
  let idx := h &&& ht.mask
  match pooledRemoveChain ht.pool h key (ht.buckets.getD idx []) with
  | some chain' =>
    ({ ht with
        buckets := ht.buckets.set idx chain'
        num_elements := (ht.num_elements + (2 ^ 64 - 1)) % 2 ^ 64 },
      true)
  | none => (ht, false)

/-! ## Tagged variant (`clht_str_tagged.hpp`) -/

/-- The tag derivation of `hashtable_tagged_put`/`get`/`remove`:
`static_cast<uint8_t>((hash >> 56) | 0x80)` — upper 8 bits with the MSB set. -/
def taggedTag (h : Nat) : Nat := ((h >>> 56) ||| 0x80) % 2 ^ 8

/-- `ClhtStrF14V2::compute_tag` (also `ClhtStrF14`):
`static_cast<uint8_t>((hash >> 57) | 0x80)`. -/
def f14v2_compute_tag (h : Nat) : Nat := ((h >>> 57) ||| 0x80) % 2 ^ 8

/-- One slot of a `BucketTagged`: the parallel entries `tags[i]`,
`key_hashes[i]`, `key_ptrs[i]`, `key_lengths[i]`, `values[i]`. -/
structure SlotTagged where
  tag : Nat
  key_hash : Nat
  key_ptr : List Nat
  key_len : Nat
  val : Nat
deriving Repr, DecidableEq

/-- A zeroed tagged slot (`EMPTY_TAG = 0`). -/
def emptySlotTagged : SlotTagged := ⟨0, 0, [], 0, 0⟩

/-- A `BucketTagged`: the `outbound_overflow_count` byte plus the slots
(`TAGGED_ENTRIES = 4`). -/
structure BucketTagged where
  count : Nat
  slots : List SlotTagged
deriving Repr, DecidableEq

/-- A freshly zero-initialized `BucketTagged`. -/
def emptyBucketTagged : BucketTagged := ⟨0, List.replicate 4 emptySlotTagged⟩

/-- `HashtableTagged`. -/
structure HashtableTagged where
  mask : Nat
  buckets : List (List BucketTagged)
  num_elements : Nat
deriving Repr, DecidableEq

/-- `hashtable_tagged_create(capacity, alloc)`
(`while (size < (capacity + TAGGED_ENTRIES - 1) / TAGGED_ENTRIES)`). -/
def hashtable_tagged_create (capacity : Nat) : HashtableTagged :=
  let target := (capacity + 4 - 1) / 4
  let size := growSize (target + 1) 1 target
  { mask := size - 1
    buckets := List.replicate size [emptyBucketTagged]
    num_elements := 0 }

/-- The tagged match condition: `match_tags_4` keeps the slots whose tag
equals the needle (iterated in ascending slot order, which is the `ctz`
order of the bitmask), and each candidate is verified by hash, stored
length, and `strcmp_simd`. -/
def taggedMatches (tag h : Nat) (key : List Nat) (s : SlotTagged) : Prop :=
  s.tag = tag ∧ s.key_hash = h ∧ s.key_len = key.length ∧
    strcmp_simd key s.key_ptr key.length = 0

instance (tag h : Nat) (key : List Nat) (s : SlotTagged) :
    Decidable (taggedMatches tag h key s) := by
  unfold taggedMatches
  infer_instance

/-- First pass of `hashtable_tagged_put` over one bucket's slots: update the
first match in place. -/
def taggedUpdateSlots (tag h : Nat) (key : List Nat) (v : Nat) :
    List SlotTagged → Option (List SlotTagged)
  | [] => none
  | s :: rest =>
    if taggedMatches tag h key s then
      some ({ s with val := v } :: rest)
    else
      match taggedUpdateSlots tag h key v rest with
      | none => none
      | some rest' => some (s :: rest')

/-- First pass of `hashtable_tagged_put` over the chain. -/
def taggedUpdateChain (tag h : Nat) (key : List Nat) (v : Nat) :
    List BucketTagged → Option (List BucketTagged)
  | [] => none
  | b :: rest =>
    match taggedUpdateSlots tag h key v b.slots with
    | some slots' => some ({ b with slots := slots' } :: rest)
    | none =>
      match taggedUpdateChain tag h key v rest with
      | none => none
      | some rest' => some (b :: rest')

/-- `find_empty_tags_4` followed by the store: replace the first slot whose
tag is `EMPTY_TAG` (the `ctz` of the empty mask). -/
def taggedInsertSlots (e : SlotTagged) : List SlotTagged → List SlotTagged
  | [] => []
  | s :: rest => if s.tag = 0 then e :: rest else s :: taggedInsertSlots e rest

/-- Whether a bucket has an empty slot (`find_empty_tags_4(...) != 0`). -/
def taggedHasEmpty (b : BucketTagged) : Bool :=
  b.slots.any fun s => s.tag == 0

/-- The guarded increment `if (count < 255) count++` of the
`outbound_overflow_count` byte. -/
def bumpCount (b : BucketTagged) : BucketTagged :=
  if b.count < 255 then { b with count := b.count + 1 } else b

/-- The guarded decrement `if (count > 0) count--`. -/
def dropCount (b : BucketTagged) : BucketTagged :=
  if 0 < b.count then { b with count := b.count - 1 } else b

/-- Second pass of `hashtable_tagged_put`: walk the chain; a bucket with an
empty slot receives the entry (and the walk's predecessor, told through the
returned flag, bumps its overflow count); a full bucket bumps its own count
and the walk continues, allocating a zeroed bucket at the tail if needed.
The returned flag is `true` exactly when the entry was placed in the first
bucket of the (sub)chain, i.e. when the caller is the `prev` of the insertion
bucket. -/
def taggedInsertGo (e : SlotTagged) : List BucketTagged → List BucketTagged × Bool
  | [] => ([{ emptyBucketTagged with slots := taggedInsertSlots e emptyBucketTagged.slots }], true)
  | b :: rest =>
    if taggedHasEmpty b then
      ({ b with slots := taggedInsertSlots e b.slots } :: rest, true)
    else
      let r := taggedInsertGo e rest
      let b1 := bumpCount b
      ((if r.2 then bumpCount b1 else b1) :: r.1, false)

/-- `hashtable_tagged_put(ht, key, len, val)`: hash, tag, existing-key pass,
then the empty-slot pass with overflow-count bookkeeping. -/
def hashtable_tagged_put (ht : HashtableTagged) (key : List Nat) (v : Nat) :
    HashtableTagged × Bool :=
  let h := hash_string key
  let tag := taggedTag h
  let idx := h &&& ht.mask
  let chain := ht.buckets.getD idx []
  match taggedUpdateChain tag h key v chain with
  | some chain' => ({ ht with buckets := ht.buckets.set idx chain' }, true)
  | none =>
    let e : SlotTagged :=
      { tag := tag, key_hash := h, key_ptr := key, key_len := key.length % 2 ^ 16, val := v }
    let chain' := (taggedInsertGo e chain).1
    ({ ht with
        buckets := ht.buckets.set idx chain'
        num_elements := (ht.num_elements + 1) % 2 ^ 64 },
      true)

/-- The per-bucket scan of `hashtable_tagged_get`: the first slot satisfying
the tag/hash/length/content match. -/
def taggedGetSlots (tag h : Nat) (key : List Nat) : List SlotTagged → Option Nat
  | [] => none
  | s :: rest =>
    if taggedMatches tag h key s then some s.val
    else taggedGetSlots tag h key rest

/-- The chain loop of `hashtable_tagged_get`, including the early exit
`if (bucket->outbound_overflow_count == 0) return UINTPTR_MAX;`. -/
def taggedGetChain (tag h : Nat) (key : List Nat) : List BucketTagged → Nat
  | [] => UINTPTR_MAX
  | b :: rest =>
    match taggedGetSlots tag h key b.slots with
    | some v => v
    | none => if b.count = 0 then UINTPTR_MAX else taggedGetChain tag h key rest

/-- `hashtable_tagged_get(ht, key, len)`. -/
def hashtable_tagged_get (ht : HashtableTagged) (key : List Nat) : Nat :=
  let h := hash_string key
  let tag := taggedTag h
  taggedGetChain tag h key (ht.buckets.getD (h &&& ht.mask) [])

/-- Reference definition for the early-exit claim: the same chain walk as
`hashtable_tagged_get` but with the early exit removed, i.e. the walk the
specification describes as the semantic baseline ("terminate early returning
NOT_FOUND **rather than** following next").  It exists only to be compared
with the real lookup. -/
def taggedGetChainFull (tag h : Nat) (key : List Nat) : List BucketTagged → Nat
  | [] => UINTPTR_MAX
  | b :: rest =>
    match taggedGetSlots tag h key b.slots with
    | some v => v
    | none => taggedGetChainFull tag h key rest

/-- `hashtable_tagged_get` with the early exit removed (reference only). -/
def hashtable_tagged_get_full (ht : HashtableTagged) (key : List Nat) : Nat :=
  let h := hash_string key
  let tag := taggedTag h
  taggedGetChainFull tag h key (ht.buckets.getD (h &&& ht.mask) [])

/-- The per-bucket scan of `hashtable_tagged_remove`: clear the first
matching slot (tag, hash, value, pointer and length all zeroed). -/
def taggedRemoveSlots (tag h : Nat) (key : List Nat) :
    List SlotTagged → Option (List SlotTagged)
  | [] => none
  | s :: rest =>
    if taggedMatches tag h key s then
      some (emptySlotTagged :: rest)
    else
      match taggedRemoveSlots tag h key rest with
      | none => none
      | some rest' => some (s :: rest')

/-- The chain loop of `hashtable_tagged_remove`: on a removal in a non-head
bucket the predecessor's overflow count is decremented (the flag reports a
removal in the first bucket of the subchain to the caller, which is its
`prev`). -/
def taggedRemoveGo (tag h : Nat) (key : List Nat) :
    List BucketTagged → Option (List BucketTagged × Bool)
  | [] => none
  | b :: rest =>
    match taggedRemoveSlots tag h key b.slots with
    | some slots' => some ({ b with slots := slots' } :: rest, true)
    | none =>
      match taggedRemoveGo tag h key rest with
      | none => none
      | some (rest', atNext) =>
        some ((if atNext then dropCount b else b) :: rest', false)

/-- `hashtable_tagged_remove(ht, key, len)`. -/
def hashtable_tagged_remove (ht : HashtableTagged) (key : List Nat) :
    HashtableTagged × Bool :=
  let h := hash_string key
  let tag := taggedTag h
  let idx := h &&& ht.mask
  match taggedRemoveGo tag h key (ht.buckets.getD idx []) with
  | some r =>
    ({ ht with
        buckets := ht.buckets.set idx r.1
        num_elements := (ht.num_elements + (2 ^ 64 - 1)) % 2 ^ 64 },
      true)
  | none => (ht, false)

/-- Tables reachable from `hashtable_tagged_create` by any sequence of
inserts and removes (the sequential semantics of the claims). -/
inductive ReachableTagged : HashtableTagged → Prop where
  | create (capacity : Nat) : ReachableTagged (hashtable_tagged_create capacity)
  | put (ht : HashtableTagged) (key : List Nat) (v : Nat) :
      ReachableTagged ht → ReachableTagged (hashtable_tagged_put ht key v).1
  | remove (ht : HashtableTagged) (key : List Nat) :
      ReachableTagged ht → ReachableTagged (hashtable_tagged_remove ht key).1

/-! ## Derived predicates used by the theorems -/

/-- One operation on a pointer-variant table. -/
inductive PtrOp where
  | put (key : List Nat) (v : Nat)
  | del (key : List Nat)
deriving Repr, DecidableEq

/-- Run a sequence of operations on a pointer-variant table. -/
def ptrRun (ht : HashtablePtr) : List PtrOp → HashtablePtr
  | [] => ht
  | PtrOp.put key v :: ops => ptrRun (hashtable_ptr_put ht key v).1 ops
  | PtrOp.del key :: ops => ptrRun (hashtable_ptr_remove ht key).1 ops

/-- The keys inserted by a sequence of operations. -/
def putKeys : List PtrOp → List (List Nat)
  | [] => []
  | PtrOp.put key _ :: ops => key :: putKeys ops
  | PtrOp.del _ :: ops => putKeys ops

/-- A pointer-variant slot that looks exactly like a never-written slot:
zero hash, null pointer, zero length (the value byte is unconstrained,
because inserting the empty key takes the in-place update path on such a
slot and writes only the value). -/
def slotPtrEmptyLike (s : SlotPtr) : Prop :=
  s.key_hash = 0 ∧ s.key_ptr = [] ∧ s.key_len = 0

/-- A pointer-variant slot that stores key `k`: the allocator copy, the
`uint16_t` length field and the hash field as `hashtable_ptr_put` writes
them for a key shorter than `2 ^ 16`. -/
def slotPtrHolds (s : SlotPtr) (k : List Nat) : Prop :=
  s.key_ptr = k ∧ s.key_len = k.length ∧ k.length < 2 ^ 16 ∧ s.key_hash = hash_string k

/-- Table-wide slot invariant for the pointer variant, relative to a predicate
`G` over keys: every slot is either empty-like or stores some key satisfying
`G`. -/
def InvPtr (G : List Nat → Prop) (ht : HashtablePtr) : Prop :=
  ∀ idx, ∀ b ∈ ht.buckets.getD idx [], ∀ s ∈ b.slots,
    slotPtrEmptyLike s ∨ ∃ k, G k ∧ slotPtrHolds s k

/-- Number of occupied (nonzero-tag) slots of a tagged bucket. -/
def occT (b : BucketTagged) : Nat :=
  (b.slots.filter fun s => s.tag != 0).length

/-- Whether any bucket of the list has an occupied slot. -/
def anyOccT (l : List BucketTagged) : Bool :=
  l.any fun b => b.slots.any fun s => s.tag != 0

/-- The lower bound that a bucket's overflow count must dominate: the number
of occupied slots of its immediate successor, plus one more when any bucket
beyond that successor holds a key. -/
def chainDemand : List BucketTagged → Nat
  | [] => 0
  | r :: rs => occT r + (if anyOccT rs then 1 else 0)

/-- The overflow-count invariant of a tagged bucket chain: every bucket's
`outbound_overflow_count` dominates `chainDemand` of the rest of the chain.
Together with `chainDemand`'s shape, a zero count implies that no key is
stored anywhere past that bucket. -/
def InvChainT : List BucketTagged → Prop
  | [] => True
  | b :: rest => chainDemand rest ≤ b.count ∧ InvChainT rest

/-- Structural well-formedness of a tagged chain: every bucket has exactly
`TAGGED_ENTRIES = 4` slots. -/
def WFChainT (l : List BucketTagged) : Prop :=
  ∀ b ∈ l, b.slots.length = 4

/-- Every stored `uint16_t` length field of a pointer-variant table is below
`2 ^ 16` (true of every table the C code can represent). -/
def ptrLensOk (ht : HashtablePtr) : Bool :=
  ht.buckets.all fun c => c.all fun b => b.slots.all fun s => s.key_len < 2 ^ 16

/-- Every stored `uint16_t` length field of a tagged table is below `2 ^ 16`. -/
def taggedLensOk (ht : HashtableTagged) : Bool :=
  ht.buckets.all fun c => c.all fun b => b.slots.all fun s => s.key_len < 2 ^ 16

/-- Every stored `uint16_t` length field of a pooled table is below `2 ^ 16`. -/
def pooledLensOk (ht : HashtablePooled) : Bool :=
  ht.buckets.all fun c => c.all fun b => b.keys.all fun s => s.length < 2 ^ 16

/-- The `key_len` field of slot 0 of the head bucket of chain 0 (the slot a
single insert into a freshly created one-chain table writes). -/
def ptrSlot0Len (ht : HashtablePtr) : Nat :=
  ((((ht.buckets.getD 0 []).headD emptyBucketPtr).slots).headD emptySlotPtr).key_len

/-- The `length` field of slot 0 of the head bucket of chain 0 of a pooled
table. -/
def pooledSlot0Len (ht : HashtablePooled) : Nat :=
  ((((ht.buckets.getD 0 []).headD emptyBucketPooled).keys).headD emptySlotPooled).length

/-- The `key_len` field of slot 0 of the head bucket of chain 0 of a tagged
table. -/
def taggedSlot0Len (ht : HashtableTagged) : Nat :=
  ((((ht.buckets.getD 0 []).headD emptyBucketTagged).slots).headD emptySlotTagged).key_len

/-! ## Theorems -/

theorem hash_string_nil : hash_string [] = 0 := rfl

theorem lockAcquirePtrFuel_stuck (b : Nat) (hb0 : b ≠ 0) (hb2 : b ≠ 2) :
    ∀ fuel, lockAcquirePtrFuel fuel b = none := by
  intro fuel
  induction fuel with
  | zero => rfl
  | succ n ih => simp [lockAcquirePtrFuel, hb0, hb2, ih]

theorem taggedSpin_stuck (b : Nat) (hb : b ≠ 0) : ∀ n, taggedSpin b n = false := by
  intro n
  induction n with
  | zero => rfl
  | succ n ih => simp [taggedSpin, hb, ih]

/-- Claim C6 (counterexample): the claim asserts that, for **every** variant,
the lock-acquisition loop terminates for every initial state of the lock
byte, failing with `false` when the lock cannot be acquired within the bound.
For the pointer variant's `lock_acquire` this is false: with the lock byte
held at `LOCK_UPDATE = 1`, the loop has still returned nothing after 20000
compare-and-swap attempts — twice the 10000-attempt bound that the tagged
variant's loop imposes (which does return `false` on the same lock byte). -/
theorem c6_lock_bound_cex :
    lockAcquirePtrFuel 20000 1 = none ∧ lock_acquire_tagged 1 = false :=
  ⟨lockAcquirePtrFuel_stuck 1 (by decide) (by decide) 20000,
   taggedSpin_stuck 1 (by decide) 10001⟩

/-- Claim C6 (amended): only the tagged-family lock loops
(`lock_acquire_tagged`, and identically `ClhtStrF14V2::acquire_lock`) are
bounded: they acquire a free lock and otherwise return `false` after their
10000-attempt budget, for every initial lock byte.  The pointer variant's
`lock_acquire` (repeated verbatim as `lock_acquire_inline` and
`lock_acquire_pooled`) instead returns `false` promptly only when it observes
`LOCK_RESIZE = 2`; for any other unacquirable lock-byte value (in particular
`LOCK_UPDATE = 1`) it spins without bound — `none` after every finite number
of attempts. -/
theorem c6_lock_acquire_amended :
    (∀ b, lock_acquire_tagged b = (b == 0)) ∧
      (∀ fuel b, lockAcquirePtrFuel (fuel + 1) b =
        if b = 0 then some true else if b = 2 then some false else none) := by
  constructor
  · intro b
    by_cases hb : b = 0
    · subst hb; rfl
    · simp [lock_acquire_tagged, taggedSpin_stuck b hb, hb]
  · intro fuel b
    by_cases hb0 : b = 0
    · subst hb0; rfl
    · by_cases hb2 : b = 2
      · subst hb2; rfl
      · simp [lockAcquirePtrFuel, hb0, hb2, lockAcquirePtrFuel_stuck b hb0 hb2]

theorem compare_key_inline_take16 (stored k : List Nat) (len sl : Nat) (hlen : len ≤ 16) :
    compare_key_inline stored (k.take 16) len sl = compare_key_inline stored k len sl := by
  unfold compare_key_inline strcmp_simd
  have h1 : (k.take 16).take (min len INLINE_STR_MAX_LEN) = k.take (min len INLINE_STR_MAX_LEN) := by
    rw [List.take_take]
    congr 1
    unfold INLINE_STR_MAX_LEN
    omega
  rw [h1]

theorem copy_key_inline_take16 (k : List Nat) (len : Nat) :
    copy_key_inline (k.take 16) len = copy_key_inline k len := by
  simp only [copy_key_inline, INLINE_STR_MAX_LEN, List.take_take]
  congr 2
  omega

theorem inlineUpdateSlots_take16 (h : Nat) (k : List Nat) (len v : Nat) (hlen : len ≤ 16)
    (l : List SlotInline) :
    inlineUpdateSlots h (k.take 16) len v l = inlineUpdateSlots h k len v l := by
  induction l with
  | nil => rfl
  | cons s rest ih =>
    simp only [inlineUpdateSlots, compare_key_inline_take16 s.key k len len hlen, ih]

theorem inlineUpdateChain_take16 (h : Nat) (k : List Nat) (len v : Nat) (hlen : len ≤ 16)
    (l : List BucketInline) :
    inlineUpdateChain h (k.take 16) len v l = inlineUpdateChain h k len v l := by
  induction l with
  | nil => rfl
  | cons b rest ih =>
    simp only [inlineUpdateChain, inlineUpdateSlots_take16 h k len v hlen, ih]

theorem inlineInsertSlots_take16 (h : Nat) (k : List Nat) (len v : Nat)
    (l : List SlotInline) :
    inlineInsertSlots h (k.take 16) len v l = inlineInsertSlots h k len v l := by
  induction l with
  | nil => rfl
  | cons s rest ih =>
    simp only [inlineInsertSlots, copy_key_inline_take16 k len, ih]

theorem inlineInsertChain_take16 (h : Nat) (k : List Nat) (len v : Nat)
    (l : List BucketInline) :
    inlineInsertChain h (k.take 16) len v l = inlineInsertChain h k len v l := by
  induction l with
  | nil => simp only [inlineInsertChain, inlineInsertSlots_take16]
  | cons b rest ih =>
    simp only [inlineInsertChain, inlineInsertSlots_take16 h k len v, ih]

theorem inlineGetSlots_take16 (h : Nat) (k : List Nat) (len : Nat) (hlen : len ≤ 16)
    (l : List SlotInline) :
    inlineGetSlots h (k.take 16) len l = inlineGetSlots h k len l := by
  induction l with
  | nil => rfl
  | cons s rest ih =>
    simp only [inlineGetSlots, compare_key_inline_take16 s.key k len len hlen, ih]

theorem inlineGetChain_take16 (h : Nat) (k : List Nat) (len : Nat) (hlen : len ≤ 16)
    (l : List BucketInline) :
    inlineGetChain h (k.take 16) len l = inlineGetChain h k len l := by
  induction l with
  | nil => rfl
  | cons b rest ih =>
    simp only [inlineGetChain, inlineGetSlots_take16 h k len hlen, ih]

theorem inlineRemoveSlots_take16 (h : Nat) (k : List Nat) (len : Nat) (hlen : len ≤ 16)
    (l : List SlotInline) :
    inlineRemoveSlots h (k.take 16) len l = inlineRemoveSlots h k len l := by
  induction l with
  | nil => rfl
  | cons s rest ih =>
    simp only [inlineRemoveSlots, compare_key_inline_take16 s.key k len len hlen, ih]

theorem inlineRemoveChain_take16 (h : Nat) (k : List Nat) (len : Nat) (hlen : len ≤ 16)
    (l : List BucketInline) :
    inlineRemoveChain h (k.take 16) len l = inlineRemoveChain h k len l := by
  induction l with
  | nil => rfl
  | cons b rest ih =>
    simp only [inlineRemoveChain, inlineRemoveSlots_take16 h k len hlen, ih]

theorem inline_len_take16 (k : List Nat) :
    min (k.take 16).length INLINE_STR_MAX_LEN = min k.length INLINE_STR_MAX_LEN := by
  simp [INLINE_STR_MAX_LEN]
  omega

theorem inline_hash_take16 (k : List Nat) :
    (k.take 16).take (min (k.take 16).length INLINE_STR_MAX_LEN) =
      k.take (min k.length INLINE_STR_MAX_LEN) := by
  rw [inline_len_take16, List.take_take]
  congr 1
  unfold INLINE_STR_MAX_LEN
  omega

theorem hashtable_inline_put_take16 (ht : HashtableInline) (k : List Nat) (v : Nat) :
    hashtable_inline_put ht (k.take 16) v = hashtable_inline_put ht k v := by
  simp only [hashtable_inline_put]
  rw [inline_hash_take16, inline_len_take16]
  rw [inlineUpdateChain_take16 _ k _ v (by simp [INLINE_STR_MAX_LEN])]
  rw [inlineInsertChain_take16]

theorem hashtable_inline_get_take16 (ht : HashtableInline) (k : List Nat) :
    hashtable_inline_get ht (k.take 16) = hashtable_inline_get ht k := by
  simp only [hashtable_inline_get]
  rw [inline_hash_take16, inline_len_take16]
  rw [inlineGetChain_take16 _ k _ (by simp [INLINE_STR_MAX_LEN])]

theorem hashtable_inline_remove_take16 (ht : HashtableInline) (k : List Nat) :
    hashtable_inline_remove ht (k.take 16) = hashtable_inline_remove ht k := by
  simp only [hashtable_inline_remove]
  rw [inline_hash_take16, inline_len_take16]
  rw [inlineRemoveChain_take16 _ k _ (by simp [INLINE_STR_MAX_LEN])]

theorem inlineUpdateSlots_fresh (h : Nat) (key : List Nat) (len v : Nat) (hlen : len ≠ 0) :
    inlineUpdateSlots h key len v emptyBucketInline.entries = none := by
  have hcond : ¬ (emptySlotInline.hash = h ∧ emptySlotInline.length = len ∧
      compare_key_inline emptySlotInline.key key len len = true) := by
    rintro ⟨-, h2, -⟩
    exact hlen (by simpa [emptySlotInline] using h2.symm)
  simp [emptyBucketInline, inlineUpdateSlots, hcond]

theorem inline_fresh_roundtrip (k : List Nat) (v : Nat) (hk : k.length ≤ 16) :
    hashtable_inline_get (hashtable_inline_put (hashtable_inline_create 1) k v).1 k = v := by
  by_cases hz : k = []
  · subst hz
    rw [show (hashtable_inline_put (hashtable_inline_create 1) [] v).1 =
        { mask := 0, buckets := [[⟨[{emptySlotInline with val := v}, emptySlotInline]⟩]],
          num_elements := 0 } from rfl]
    simp [hashtable_inline_get, inlineGetChain, inlineGetSlots, compare_key_inline, strcmp_simd,
      emptySlotInline, INLINE_STR_MAX_LEN, hash_string, hash_str_crc32]
  · have hne : k.length ≠ 0 := fun h => hz (List.eq_nil_of_length_eq_zero h)
    have hlen : min k.length INLINE_STR_MAX_LEN = k.length := by
      simp [INLINE_STR_MAX_LEN]; omega
    have htake : k.take k.length = k := List.take_length k
    have hmod : k.length % 256 = k.length := Nat.mod_eq_of_lt (by omega)
    have hmod' : k.length % 2 ^ 8 = k.length := Nat.mod_eq_of_lt (by simp; omega)
    have hcopy : (copy_key_inline k k.length).take k.length = k := by
      simp [copy_key_inline, INLINE_STR_MAX_LEN, min_eq_left hk, htake,
        List.take_append_eq_append_take]
    simp [hashtable_inline_put, hashtable_inline_get, hashtable_inline_create, growSize,
      hlen, htake, inlineUpdateChain, inlineUpdateSlots, inlineInsertChain, inlineInsertSlots,
      inlineGetChain, inlineGetSlots, emptyBucketInline, emptySlotInline, compare_key_inline,
      strcmp_simd, hcopy, hmod, hmod', Ne.symm hne, INLINE_STR_MAX_LEN, min_eq_left hk]

/-- Claim C7: in the Inline variant (inline capacity 16 bytes), insert,
lookup, and remove on any key behave exactly as the same operation applied to
the key's first 16 bytes (for keys longer than 16 bytes this is the
documented truncation policy), and inserting a long key into a fresh table
and looking up the 16-byte key equal to its first 16 bytes returns the stored
value.  Two distinct long keys sharing their first 16 bytes therefore alias
to one entry whose observable value is the last one written, since every
operation factors through `k.take 16`. -/
theorem c7_inline_truncation :
    (∀ ht k v, hashtable_inline_put ht k v = hashtable_inline_put ht (k.take 16) v) ∧
    (∀ ht k, hashtable_inline_get ht k = hashtable_inline_get ht (k.take 16)) ∧
    (∀ ht k, hashtable_inline_remove ht k = hashtable_inline_remove ht (k.take 16)) ∧
    (∀ k v, hashtable_inline_get
        (hashtable_inline_put (hashtable_inline_create 1) k v).1 (k.take 16) = v) := by
  refine ⟨fun ht k v => (hashtable_inline_put_take16 ht k v).symm,
    fun ht k => (hashtable_inline_get_take16 ht k).symm,
    fun ht k => (hashtable_inline_remove_take16 ht k).symm,
    fun k v => ?_⟩
  rw [← hashtable_inline_put_take16 (hashtable_inline_create 1) k v]
  exact inline_fresh_roundtrip (k.take 16) v (by simp)

theorem getD_set_ite {α : Type} (l : List α) (i j : Nat) (c d : α) :
    (l.set i c).getD j d = if j = i ∧ i < l.length then c else l.getD j d := by
  rw [List.getD_eq_getElem?_getD, List.getD_eq_getElem?_getD, List.getElem?_set]
  by_cases h1 : i = j
  · subst h1
    by_cases h2 : i < l.length
    · simp [h2]
    · have : l[i]? = none := List.getElem?_eq_none (le_of_not_lt h2)
      simp [h2, this]
  · simp [h1, Ne.symm h1]

theorem getD_replicate {α : Type} (n j : Nat) (x : α) (d : α) :
    (List.replicate n x).getD j d = if j < n then x else d := by
  rw [List.getD_eq_getElem?_getD]
  by_cases h : j < n
  · simp [List.getElem?_replicate, h]
  · simp [List.getElem?_replicate, h]

theorem or128_mod256_bound (x : Nat) : 128 ≤ (x ||| 128) % 256 ∧ (x ||| 128) % 256 < 256 := by
  have h1 : (x ||| 128) % 256 < 256 := Nat.mod_lt _ (by norm_num)
  refine ⟨?_, h1⟩
  have h2 : ((x ||| 128) % 256).testBit 7 = true := by
    rw [show (256 : Nat) = 2 ^ 8 from rfl, Nat.testBit_mod_two_pow]
    simp [Nat.testBit_lor]
    right
    decide
  by_contra hlt
  push_neg at hlt
  have h3 := Nat.testBit_lt_two_pow (show (x ||| 128) % 256 < 2 ^ 7 by omega)
  rw [h2] at h3
  cases h3

theorem taggedTag_bound (h : Nat) : 2 ^ 7 ≤ taggedTag h ∧ taggedTag h < 2 ^ 8 :=
  or128_mod256_bound (h >>> 56)

theorem f14v2_compute_tag_bound (h : Nat) :
    2 ^ 7 ≤ f14v2_compute_tag h ∧ f14v2_compute_tag h < 2 ^ 8 :=
  or128_mod256_bound (h >>> 57)

theorem taggedUpdateSlots_pres (P : SlotTagged → Prop) (tag h : Nat) (key : List Nat) (v : Nat)
    (hval : ∀ s, P s → P { s with val := v }) :
    ∀ l l', taggedUpdateSlots tag h key v l = some l' → (∀ s ∈ l, P s) → ∀ s ∈ l', P s := by
  intro l
  induction l with
  | nil => intro l' heq; simp [taggedUpdateSlots] at heq
  | cons s rest ih =>
    intro l' heq hP
    by_cases hc : taggedMatches tag h key s
    · simp only [taggedUpdateSlots, if_pos hc, Option.some.injEq] at heq
      subst heq
      intro s' hs'
      rcases List.mem_cons.mp hs' with h1 | h1
      · subst h1; exact hval s (hP s (List.mem_cons_self s rest))
      · exact hP s' (List.mem_cons_of_mem s h1)
    · simp only [taggedUpdateSlots, if_neg hc] at heq
      cases hr : taggedUpdateSlots tag h key v rest with
      | none => rw [hr] at heq; cases heq
      | some rest' =>
        rw [hr] at heq
        simp only [Option.some.injEq] at heq
        subst heq
        intro s' hs'
        rcases List.mem_cons.mp hs' with h1 | h1
        · rw [h1]; exact hP s (List.mem_cons_self s rest)
        · exact ih rest' hr (fun t ht => hP t (List.mem_cons_of_mem s ht)) s' h1

theorem taggedUpdateChain_pres (P : SlotTagged → Prop) (tag h : Nat) (key : List Nat) (v : Nat)
    (hval : ∀ s, P s → P { s with val := v }) :
    ∀ l l', taggedUpdateChain tag h key v l = some l' →
      (∀ b ∈ l, ∀ s ∈ b.slots, P s) → ∀ b ∈ l', ∀ s ∈ b.slots, P s := by
  intro l
  induction l with
  | nil => intro l' heq; simp [taggedUpdateChain] at heq
  | cons b rest ih =>
    intro l' heq hP
    cases hs : taggedUpdateSlots tag h key v b.slots with
    | some slots' =>
      rw [taggedUpdateChain, hs] at heq
      simp only [Option.some.injEq] at heq
      subst heq
      intro b' hb'
      rcases List.mem_cons.mp hb' with h1 | h1
      · subst h1
        exact taggedUpdateSlots_pres P tag h key v hval b.slots slots' hs
          (hP b (List.mem_cons_self b rest))
      · exact hP b' (List.mem_cons_of_mem b h1)
    | none =>
      rw [taggedUpdateChain, hs] at heq
      cases hr : taggedUpdateChain tag h key v rest with
      | none => rw [hr] at heq; cases heq
      | some rest' =>
        rw [hr] at heq
        simp only [Option.some.injEq] at heq
        subst heq
        intro b' hb'
        rcases List.mem_cons.mp hb' with h1 | h1
        · rw [h1]; exact hP b (List.mem_cons_self b rest)
        · exact ih rest' hr (fun t ht => hP t (List.mem_cons_of_mem b ht)) b' h1

theorem taggedInsertSlots_pres (P : SlotTagged → Prop) (e : SlotTagged) (hPe : P e) :
    ∀ l, (∀ s ∈ l, P s) → ∀ s ∈ taggedInsertSlots e l, P s := by
  intro l
  induction l with
  | nil => intro _ s hs; cases hs
  | cons s rest ih =>
    intro hP s' hs'
    by_cases hc : s.tag = 0
    · rw [taggedInsertSlots, if_pos hc] at hs'
      rcases List.mem_cons.mp hs' with h1 | h1
      · subst h1; exact hPe
      · exact hP s' (List.mem_cons_of_mem s h1)
    · rw [taggedInsertSlots, if_neg hc] at hs'
      rcases List.mem_cons.mp hs' with h1 | h1
      · rw [h1]; exact hP s (List.mem_cons_self s rest)
      · exact ih (fun t ht => hP t (List.mem_cons_of_mem s ht)) s' h1

theorem taggedInsertGo_pres (P : SlotTagged → Prop) (e : SlotTagged) (hPe : P e)
    (hPempty : P emptySlotTagged) :
    ∀ l, (∀ b ∈ l, ∀ s ∈ b.slots, P s) → ∀ b ∈ (taggedInsertGo e l).1, ∀ s ∈ b.slots, P s := by
  intro l
  induction l with
  | nil =>
    intro _ b hb s hs
    simp only [taggedInsertGo, List.mem_singleton] at hb
    subst hb
    refine taggedInsertSlots_pres P e hPe _ ?_ s hs
    intro t ht
    simp only [emptyBucketTagged, List.mem_replicate] at ht
    rw [ht.2]
    exact hPempty
  | cons b rest ih =>
    intro hP b' hb'
    by_cases hc : taggedHasEmpty b = true
    · rw [taggedInsertGo, if_pos hc] at hb'
      rcases List.mem_cons.mp hb' with h1 | h1
      · subst h1
        exact taggedInsertSlots_pres P e hPe _ (hP b (List.mem_cons_self b rest))
      · exact hP b' (List.mem_cons_of_mem b h1)
    · rw [taggedInsertGo, if_neg hc] at hb'
      simp only [List.mem_cons] at hb'
      rcases hb' with h1 | h1
      · subst h1
        intro s hs
        have hslots : ∀ c : BucketTagged, (bumpCount c).slots = c.slots := by
          intro c
          unfold bumpCount
          by_cases hb2 : c.count < 255 <;> simp [hb2]
        by_cases hflag : (taggedInsertGo e rest).2 = true
        · rw [if_pos hflag, hslots, hslots] at hs
          exact hP b (List.mem_cons_self b rest) s hs
        · rw [if_neg hflag, hslots] at hs
          exact hP b (List.mem_cons_self b rest) s hs
      · exact ih (fun t ht => hP t (List.mem_cons_of_mem b ht)) b' h1

theorem taggedRemoveSlots_pres (P : SlotTagged → Prop) (tag h : Nat) (key : List Nat)
    (hPempty : P emptySlotTagged) :
    ∀ l l', taggedRemoveSlots tag h key l = some l' → (∀ s ∈ l, P s) → ∀ s ∈ l', P s := by
  intro l
  induction l with
  | nil => intro l' heq; simp [taggedRemoveSlots] at heq
  | cons s rest ih =>
    intro l' heq hP
    by_cases hc : taggedMatches tag h key s
    · simp only [taggedRemoveSlots, if_pos hc, Option.some.injEq] at heq
      subst heq
      intro s' hs'
      rcases List.mem_cons.mp hs' with h1 | h1
      · subst h1; exact hPempty
      · exact hP s' (List.mem_cons_of_mem s h1)
    · simp only [taggedRemoveSlots, if_neg hc] at heq
      cases hr : taggedRemoveSlots tag h key rest with
      | none => rw [hr] at heq; cases heq
      | some rest' =>
        rw [hr] at heq
        simp only [Option.some.injEq] at heq
        subst heq
        intro s' hs'
        rcases List.mem_cons.mp hs' with h1 | h1
        · rw [h1]; exact hP s (List.mem_cons_self s rest)
        · exact ih rest' hr (fun t ht => hP t (List.mem_cons_of_mem s ht)) s' h1

theorem taggedRemoveGo_pres (P : SlotTagged → Prop) (tag h : Nat) (key : List Nat)
    (hPempty : P emptySlotTagged) :
    ∀ l r, taggedRemoveGo tag h key l = some r →
      (∀ b ∈ l, ∀ s ∈ b.slots, P s) → ∀ b ∈ r.1, ∀ s ∈ b.slots, P s := by
  intro l
  induction l with
  | nil => intro r heq; simp [taggedRemoveGo] at heq
  | cons b rest ih =>
    intro r heq hP
    cases hs : taggedRemoveSlots tag h key b.slots with
    | some slots' =>
      rw [taggedRemoveGo, hs] at heq
      simp only [Option.some.injEq] at heq
      subst heq
      intro b' hb'
      rcases List.mem_cons.mp hb' with h1 | h1
      · subst h1
        exact taggedRemoveSlots_pres P tag h key hPempty b.slots slots' hs
          (hP b (List.mem_cons_self b rest))
      · exact hP b' (List.mem_cons_of_mem b h1)
    | none =>
      rw [taggedRemoveGo, hs] at heq
      cases hr : taggedRemoveGo tag h key rest with
      | none => rw [hr] at heq; cases heq
      | some r' =>
        rw [hr] at heq
        simp only [Option.some.injEq] at heq
        subst heq
        intro b' hb'
        simp only [List.mem_cons] at hb'
        rcases hb' with h1 | h1
        · subst h1
          have hslots : (dropCount b).slots = b.slots := by
            unfold dropCount
            by_cases hb2 : 0 < b.count <;> simp [hb2]
          intro s hs2
          by_cases hflag : r'.2 = true
          · rw [if_pos hflag, hslots] at hs2
            exact hP b (List.mem_cons_self b rest) s hs2
          · rw [if_neg hflag] at hs2
            exact hP b (List.mem_cons_self b rest) s hs2
        · exact ih r' hr (fun t ht => hP t (List.mem_cons_of_mem b ht)) b' h1

theorem taggedTableSlots_create (P : SlotTagged → Prop) (hempty : P emptySlotTagged)
    (capacity : Nat) :
    ∀ idx, ∀ b ∈ (hashtable_tagged_create capacity).buckets.getD idx [], ∀ s ∈ b.slots, P s := by
  intro idx b hb s hs
  simp only [hashtable_tagged_create] at hb
  rw [getD_replicate] at hb
  by_cases hlt : idx < growSize ((capacity + 4 - 1) / 4 + 1) 1 ((capacity + 4 - 1) / 4)
  · rw [if_pos hlt] at hb
    simp only [List.mem_singleton] at hb
    subst hb
    simp only [emptyBucketTagged, List.mem_replicate] at hs
    rw [hs.2]
    exact hempty
  · rw [if_neg hlt] at hb
    cases hb

theorem taggedTableSlots_put (P : SlotTagged → Prop) (ht : HashtableTagged) (key : List Nat)
    (v : Nat)
    (hval : ∀ s, P s → P { s with val := v })
    (hempty : P emptySlotTagged)
    (hent : P { tag := taggedTag (hash_string key), key_hash := hash_string key,
                key_ptr := key, key_len := key.length % 2 ^ 16, val := v })
    (hP : ∀ idx, ∀ b ∈ ht.buckets.getD idx [], ∀ s ∈ b.slots, P s) :
    ∀ idx, ∀ b ∈ (hashtable_tagged_put ht key v).1.buckets.getD idx [], ∀ s ∈ b.slots, P s := by
  have key1 : ∀ chain', (∀ b ∈ chain', ∀ s ∈ b.slots, P s) →
      ∀ idx, ∀ b ∈ (ht.buckets.set (hash_string key &&& ht.mask) chain').getD idx [],
        ∀ s ∈ b.slots, P s := by
    intro chain' hchain idx b hb
    rw [getD_set_ite] at hb
    by_cases hc : idx = (hash_string key &&& ht.mask) ∧
        (hash_string key &&& ht.mask) < ht.buckets.length
    · rw [if_pos hc] at hb; exact hchain b hb
    · rw [if_neg hc] at hb; exact hP idx b hb
  simp only [hashtable_tagged_put]
  cases hu : taggedUpdateChain (taggedTag (hash_string key)) (hash_string key) key v
      (ht.buckets.getD (hash_string key &&& ht.mask) []) with
  | some chain' =>
    simp only [hu]
    exact key1 chain' (taggedUpdateChain_pres P _ _ key v hval _ chain' hu
      (hP (hash_string key &&& ht.mask)))
  | none =>
    simp only [hu]
    exact key1 _ (taggedInsertGo_pres P _ hent hempty _ (hP (hash_string key &&& ht.mask)))

theorem taggedTableSlots_remove (P : SlotTagged → Prop) (ht : HashtableTagged) (key : List Nat)
    (hempty : P emptySlotTagged)
    (hP : ∀ idx, ∀ b ∈ ht.buckets.getD idx [], ∀ s ∈ b.slots, P s) :
    ∀ idx, ∀ b ∈ (hashtable_tagged_remove ht key).1.buckets.getD idx [],
      ∀ s ∈ b.slots, P s := by
  have key1 : ∀ chain', (∀ b ∈ chain', ∀ s ∈ b.slots, P s) →
      ∀ idx, ∀ b ∈ (ht.buckets.set (hash_string key &&& ht.mask) chain').getD idx [],
        ∀ s ∈ b.slots, P s := by
    intro chain' hchain idx b hb
    rw [getD_set_ite] at hb
    by_cases hc : idx = (hash_string key &&& ht.mask) ∧
        (hash_string key &&& ht.mask) < ht.buckets.length
    · rw [if_pos hc] at hb; exact hchain b hb
    · rw [if_neg hc] at hb; exact hP idx b hb
  simp only [hashtable_tagged_remove]
  cases hr : taggedRemoveGo (taggedTag (hash_string key)) (hash_string key) key
      (ht.buckets.getD (hash_string key &&& ht.mask) []) with
  | some r =>
    simp only [hr]
    exact key1 r.1 (taggedRemoveGo_pres P _ _ key hempty _ r hr
      (hP (hash_string key &&& ht.mask)))
  | none =>
    simp only [hr]
    exact hP

theorem taggedTableSlots_reachable (P : SlotTagged → Prop)
    (hempty : P emptySlotTagged)
    (hval : ∀ s v, P s → P { s with val := v })
    (hent : ∀ key v, P { tag := taggedTag (hash_string key), key_hash := hash_string key,
                         key_ptr := key, key_len := key.length % 2 ^ 16, val := v }) :
    ∀ ht, ReachableTagged ht → ∀ idx, ∀ b ∈ ht.buckets.getD idx [], ∀ s ∈ b.slots, P s := by
  intro ht hr
  induction hr with
  | create capacity => exact taggedTableSlots_create P hempty capacity
  | put ht' key v _hr ih =>
    exact taggedTableSlots_put P ht' key v (fun s => hval s v) hempty (hent key v) ih
  | remove ht' key _hr ih =>
    exact taggedTableSlots_remove P ht' key hempty ih

/-- Claim C8: for every 64-bit hash, the derived tag
(`(hash >> 56) | 0x80` in the tagged variant, `(hash >> 57) | 0x80` in
F14/F14V2) has its most significant bit set, hence is nonzero and never equal
to the empty-sentinel tag `EMPTY_TAG = 0`; and in every reachable tagged
table, every slot's tag byte is either the empty sentinel `0` or has the high
bit set, so an empty-tag scan can never mistake a stored key for an empty
slot. -/
theorem c8_tag_nonzero :
    (∀ h, 2 ^ 7 ≤ taggedTag h ∧ taggedTag h < 2 ^ 8 ∧ taggedTag h ≠ 0) ∧
      (∀ h, 2 ^ 7 ≤ f14v2_compute_tag h ∧ f14v2_compute_tag h < 2 ^ 8 ∧
        f14v2_compute_tag h ≠ 0) ∧
      (∀ ht, ReachableTagged ht → ∀ idx, ∀ b ∈ ht.buckets.getD idx [], ∀ s ∈ b.slots,
        s.tag = 0 ∨ 2 ^ 7 ≤ s.tag) := by
  refine ⟨fun h => ⟨(taggedTag_bound h).1, (taggedTag_bound h).2, ?_⟩,
    fun h => ⟨(f14v2_compute_tag_bound h).1, (f14v2_compute_tag_bound h).2, ?_⟩, ?_⟩
  · have := (taggedTag_bound h).1
    omega
  · have := (f14v2_compute_tag_bound h).1
    omega
  · refine taggedTableSlots_reachable (fun s => s.tag = 0 ∨ 2 ^ 7 ≤ s.tag) (Or.inl rfl)
      (fun s v hs => hs) (fun key v => Or.inr (taggedTag_bound (hash_string key)).1)

/-- Claim C8 (witness): the reachable-table clause of `c8_tag_nonzero`
applied to a concrete table, an insert into a freshly created one-bucket
table, at its head bucket's first slot. -/
theorem c8_tag_nonzero_witness :
    ∀ b ∈ (hashtable_tagged_put (hashtable_tagged_create 1) [97] 5).1.buckets.getD 0 [],
      ∀ s ∈ b.slots, s.tag = 0 ∨ 2 ^ 7 ≤ s.tag :=
  c8_tag_nonzero.2.2 (hashtable_tagged_put (hashtable_tagged_create 1) [97] 5).1
    (ReachableTagged.put (hashtable_tagged_create 1) [97] 5 (ReachableTagged.create 1)) 0

theorem ptrPutSlots_roundtrip (h : Nat) (key : List Nat) (v : Nat)
    (hlen : key.length < 2 ^ 16) :
    ∀ l l' ins, ptrPutSlots h key v l = some (l', ins) → ptrGetSlots h key l' = some v := by
  intro l
  induction l with
  | nil => intro l' ins heq; simp [ptrPutSlots] at heq
  | cons s rest ih =>
    intro l' ins heq
    by_cases hc : s.key_hash = h ∧ s.key_len = key.length ∧
        strcmp_simd key s.key_ptr key.length = 0
    · simp only [ptrPutSlots, if_pos hc, Option.some.injEq, Prod.mk.injEq] at heq
      rw [← heq.1]
      have hc' : ({ s with val := v } : SlotPtr).key_hash = h ∧
          ({ s with val := v } : SlotPtr).key_len = key.length ∧
          strcmp_simd key ({ s with val := v } : SlotPtr).key_ptr key.length = 0 := hc
      rw [ptrGetSlots, if_pos hc']
    · by_cases hz : s.key_hash = 0
      · simp only [ptrPutSlots, if_neg hc, if_pos hz, Option.some.injEq, Prod.mk.injEq] at heq
        rw [← heq.1]
        have hcnew : (⟨h, key, key.length % 2 ^ 16, v⟩ : SlotPtr).key_hash = h ∧
            (⟨h, key, key.length % 2 ^ 16, v⟩ : SlotPtr).key_len = key.length ∧
            strcmp_simd key (⟨h, key, key.length % 2 ^ 16, v⟩ : SlotPtr).key_ptr
              key.length = 0 := by
          refine ⟨rfl, Nat.mod_eq_of_lt hlen, ?_⟩
          simp [strcmp_simd]
        rw [ptrGetSlots, if_pos hcnew]
      · simp only [ptrPutSlots, if_neg hc, if_neg hz] at heq
        cases hr : ptrPutSlots h key v rest with
        | none => rw [hr] at heq; cases heq
        | some r =>
          rw [hr] at heq
          simp only [Option.some.injEq] at heq
          have h1 : s :: r.1 = l' := congrArg Prod.fst heq
          rw [← h1]
          rw [ptrGetSlots, if_neg hc, if_neg hz]
          exact ih r.1 r.2 (by rw [hr])

theorem ptrPutSlots_none_get (h : Nat) (key : List Nat) (v : Nat) :
    ∀ l, ptrPutSlots h key v l = none → ptrGetSlots h key l = none := by
  intro l
  induction l with
  | nil => intro _; rfl
  | cons s rest ih =>
    intro heq
    by_cases hc : s.key_hash = h ∧ s.key_len = key.length ∧
        strcmp_simd key s.key_ptr key.length = 0
    · simp [ptrPutSlots, if_pos hc] at heq
    · by_cases hz : s.key_hash = 0
      · simp [ptrPutSlots, if_neg hc, if_pos hz] at heq
      · simp only [ptrPutSlots, if_neg hc, if_neg hz] at heq
        rw [ptrGetSlots, if_neg hc, if_neg hz]
        cases hr : ptrPutSlots h key v rest with
        | none => exact ih hr
        | some r => rw [hr] at heq; cases heq

theorem ptrPutSlots_cons_empty (h : Nat) (key : List Nat) (v : Nat) (rest : List SlotPtr) :
    ∃ r, ptrPutSlots h key v (emptySlotPtr :: rest) = some r := by
  by_cases hc : emptySlotPtr.key_hash = h ∧ emptySlotPtr.key_len = key.length ∧
      strcmp_simd key emptySlotPtr.key_ptr key.length = 0
  · exact ⟨({ emptySlotPtr with val := v } :: rest, false), by rw [ptrPutSlots, if_pos hc]⟩
  · exact ⟨(⟨h, key, key.length % 2 ^ 16, v⟩ :: rest, true),
      by rw [ptrPutSlots, if_neg hc, if_pos (show emptySlotPtr.key_hash = 0 from rfl)]⟩

theorem ptrPutChain_roundtrip (h : Nat) (key : List Nat) (v : Nat)
    (hlen : key.length < 2 ^ 16) :
    ∀ l, ptrGetChain h key (ptrPutChain h key v l).1 = v := by
  intro l
  induction l with
  | nil =>
    rcases ptrPutSlots_cons_empty h key v [emptySlotPtr, emptySlotPtr] with ⟨r, hr⟩
    have hr' : ptrPutSlots h key v emptyBucketPtr.slots = some r := by
      simpa [emptyBucketPtr, List.replicate] using hr
    rw [ptrPutChain, hr']
    rw [ptrGetChain, ptrPutSlots_roundtrip h key v hlen _ r.1 r.2 (by rw [hr'])]
  | cons b rest ih =>
    cases hs : ptrPutSlots h key v b.slots with
    | some r =>
      rw [ptrPutChain, hs]
      rw [ptrGetChain, ptrPutSlots_roundtrip h key v hlen _ r.1 r.2 (by rw [hs])]
    | none =>
      simp only [ptrPutChain, hs, ptrGetChain, ptrPutSlots_none_get h key v _ hs]
      exact ih

theorem hashtable_ptr_roundtrip (ht : HashtablePtr) (key : List Nat) (v : Nat)
    (hmask : ht.mask < ht.buckets.length) (hlen : key.length < 2 ^ 16) :
    hashtable_ptr_get (hashtable_ptr_put ht key v).1 key = v := by
  have hidx : hash_string key &&& ht.mask < ht.buckets.length :=
    Nat.lt_of_le_of_lt (Nat.and_le_right) hmask
  simp only [hashtable_ptr_put, hashtable_ptr_get]
  rw [getD_set_ite]
  rw [if_pos ⟨rfl, hidx⟩]
  exact ptrPutChain_roundtrip (hash_string key) key v hlen _

theorem ptr_put_fresh_insert (key : List Nat) (v : Nat) (hne : key.length ≠ 0) :
    (hashtable_ptr_put (hashtable_ptr_create 1) key v).1 =
      { mask := 0,
        buckets := [[⟨[⟨hash_string key, key, key.length % 2 ^ 16, v⟩,
          emptySlotPtr, emptySlotPtr]⟩]],
        num_elements := 1 } := by
  have hne' : (0 : Nat) ≠ key.length := Ne.symm hne
  have hcreate : hashtable_ptr_create 1 =
      { mask := 0, buckets := [[emptyBucketPtr]], num_elements := 0 } := rfl
  simp only [hashtable_ptr_put, hcreate, Nat.and_zero]
  simp [ptrPutChain, ptrPutSlots, emptyBucketPtr, emptySlotPtr, hne']

theorem ptr_get_fresh_miss (key : List Nat) (L v : Nat) (hL : L ≠ key.length) :
    hashtable_ptr_get
      { mask := 0,
        buckets := [[⟨[⟨hash_string key, key, L, v⟩, emptySlotPtr, emptySlotPtr]⟩]],
        num_elements := 1 } key = UINTPTR_MAX := by
  simp only [hashtable_ptr_get, Nat.and_zero]
  by_cases hz : hash_string key = 0
  · simp [ptrGetChain, ptrGetSlots, hL, hz]
  · have hz' : (0 : Nat) ≠ hash_string key := Ne.symm hz
    simp [ptrGetChain, ptrGetSlots, hL, hz, hz', emptySlotPtr]

/-- Claim C1 (counterexample): the claim quantifies over every key; for the
pointer variant and the 65536-byte key `'a' * 65536`, insert stores the
length as `static_cast<uint16_t>(len) = 0`, so the immediately following
lookup of the same key fails the length comparison against the full argument
length and returns `UINTPTR_MAX` instead of the stored value 7. -/
theorem c1_roundtrip_cex :
    hashtable_ptr_get (hashtable_ptr_put (hashtable_ptr_create 1)
      (List.replicate 65536 97) 7).1 (List.replicate 65536 97) ≠ 7 := by
  have hKlen : (List.replicate (65536 : Nat) 97).length = 65536 :=
    List.length_replicate 65536 97
  rw [ptr_put_fresh_insert (List.replicate 65536 97) 7 (by rw [hKlen]; norm_num)]
  rw [show (List.replicate (65536 : Nat) 97).length % 2 ^ 16 = 0 by rw [hKlen]; norm_num]
  rw [ptr_get_fresh_miss (List.replicate 65536 97) 0 7 (by rw [hKlen]; norm_num)]
  decide

/-- Claim C4 (code bug, evaluation at the failing input): on a single-bucket
pointer-variant table holding `"a" ↦ 10` (slot 0) and `"b" ↦ 20` (slot 1 of
the same bucket), `remove("a")` succeeds and zeroes slot 0; the subsequent
`lookup("b")` hits the cleared slot's `key_hash == 0` early-termination check
before ever reaching slot 1 and returns `UINTPTR_MAX`, even though `"b"` is
still stored with value 20 (as the lookup before the removal shows). -/
theorem c4_remove_unreach_eval :
    hashtable_ptr_get (hashtable_ptr_put (hashtable_ptr_put (hashtable_ptr_create 1)
        [97] 10).1 [98] 20).1 [98] = 20 ∧
      (hashtable_ptr_remove (hashtable_ptr_put (hashtable_ptr_put (hashtable_ptr_create 1)
        [97] 10).1 [98] 20).1 [97]).2 = true ∧
      hashtable_ptr_get (hashtable_ptr_remove (hashtable_ptr_put (hashtable_ptr_put
        (hashtable_ptr_create 1) [97] 10).1 [98] 20).1 [97]).1 [98] = UINTPTR_MAX := by
  refine ⟨by decide, by decide, by decide⟩

theorem ptrPutSlots_pres (P : SlotPtr → Prop) (h : Nat) (key : List Nat) (v : Nat)
    (hval : ∀ s, P s → P { s with val := v })
    (hent : P ⟨h, key, key.length % 2 ^ 16, v⟩) :
    ∀ l l' ins, ptrPutSlots h key v l = some (l', ins) → (∀ s ∈ l, P s) → ∀ s ∈ l', P s := by
  intro l
  induction l with
  | nil => intro l' ins heq; simp [ptrPutSlots] at heq
  | cons s rest ih =>
    intro l' ins heq hP
    by_cases hc : s.key_hash = h ∧ s.key_len = key.length ∧
        strcmp_simd key s.key_ptr key.length = 0
    · simp only [ptrPutSlots, if_pos hc, Option.some.injEq, Prod.mk.injEq] at heq
      rw [← heq.1]
      intro s' hs'
      rcases List.mem_cons.mp hs' with h1 | h1
      · subst h1; exact hval s (hP s (List.mem_cons_self s rest))
      · exact hP s' (List.mem_cons_of_mem s h1)
    · by_cases hz : s.key_hash = 0
      · simp only [ptrPutSlots, if_neg hc, if_pos hz, Option.some.injEq, Prod.mk.injEq] at heq
        rw [← heq.1]
        intro s' hs'
        rcases List.mem_cons.mp hs' with h1 | h1
        · subst h1; exact hent
        · exact hP s' (List.mem_cons_of_mem s h1)
      · simp only [ptrPutSlots, if_neg hc, if_neg hz] at heq
        cases hr : ptrPutSlots h key v rest with
        | none => rw [hr] at heq; cases heq
        | some r =>
          rw [hr] at heq
          simp only [Option.some.injEq] at heq
          have h1 : s :: r.1 = l' := congrArg Prod.fst heq
          rw [← h1]
          intro s' hs'
          rcases List.mem_cons.mp hs' with h2 | h2
          · rw [h2]; exact hP s (List.mem_cons_self s rest)
          · exact ih r.1 r.2 (by rw [hr]) (fun t ht => hP t (List.mem_cons_of_mem s ht)) s' h2

theorem ptrPutChain_pres (P : SlotPtr → Prop) (h : Nat) (key : List Nat) (v : Nat)
    (hval : ∀ s, P s → P { s with val := v })
    (hent : P ⟨h, key, key.length % 2 ^ 16, v⟩)
    (hempty : P emptySlotPtr) :
    ∀ l, (∀ b ∈ l, ∀ s ∈ b.slots, P s) →
      ∀ b ∈ (ptrPutChain h key v l).1, ∀ s ∈ b.slots, P s := by
  intro l
  induction l with
  | nil =>
    intro _ b hb
    rw [ptrPutChain] at hb
    rcases ptrPutSlots_cons_empty h key v [emptySlotPtr, emptySlotPtr] with ⟨r, hr⟩
    have hr' : ptrPutSlots h key v emptyBucketPtr.slots = some r := by
      simpa [emptyBucketPtr, List.replicate] using hr
    rw [hr'] at hb
    simp only [List.mem_singleton] at hb
    subst hb
    refine ptrPutSlots_pres P h key v hval hent _ r.1 r.2 (by rw [hr']) ?_
    intro t ht
    simp only [emptyBucketPtr, List.mem_replicate] at ht
    rw [ht.2]
    exact hempty
  | cons b rest ih =>
    intro hP b' hb'
    cases hs : ptrPutSlots h key v b.slots with
    | some r =>
      rw [ptrPutChain, hs] at hb'
      rcases List.mem_cons.mp hb' with h1 | h1
      · subst h1
        exact ptrPutSlots_pres P h key v hval hent _ r.1 r.2 (by rw [hs])
          (hP b (List.mem_cons_self b rest))
      · exact hP b' (List.mem_cons_of_mem b h1)
    | none =>
      rw [ptrPutChain, hs] at hb'
      rcases List.mem_cons.mp hb' with h1 | h1
      · rw [h1]; exact hP b (List.mem_cons_self b rest)
      · exact ih (fun t ht => hP t (List.mem_cons_of_mem b ht)) b' h1

theorem ptrRemoveSlots_pres (P : SlotPtr → Prop) (h : Nat) (key : List Nat)
    (hempty : P emptySlotPtr) :
    ∀ l l', ptrRemoveSlots h key l = some l' → (∀ s ∈ l, P s) → ∀ s ∈ l', P s := by
  intro l
  induction l with
  | nil => intro l' heq; simp [ptrRemoveSlots] at heq
  | cons s rest ih =>
    intro l' heq hP
    by_cases hc : s.key_hash = h ∧ s.key_len = key.length ∧
        strcmp_simd key s.key_ptr key.length = 0
    · simp only [ptrRemoveSlots, if_pos hc, Option.some.injEq] at heq
      subst heq
      intro s' hs'
      rcases List.mem_cons.mp hs' with h1 | h1
      · subst h1; exact hempty
      · exact hP s' (List.mem_cons_of_mem s h1)
    · simp only [ptrRemoveSlots, if_neg hc] at heq
      cases hr : ptrRemoveSlots h key rest with
      | none => rw [hr] at heq; cases heq
      | some rest' =>
        rw [hr] at heq
        simp only [Option.some.injEq] at heq
        subst heq
        intro s' hs'
        rcases List.mem_cons.mp hs' with h1 | h1
        · rw [h1]; exact hP s (List.mem_cons_self s rest)
        · exact ih rest' hr (fun t ht => hP t (List.mem_cons_of_mem s ht)) s' h1

theorem ptrRemoveChain_pres (P : SlotPtr → Prop) (h : Nat) (key : List Nat)
    (hempty : P emptySlotPtr) :
    ∀ l l', ptrRemoveChain h key l = some l' →
      (∀ b ∈ l, ∀ s ∈ b.slots, P s) → ∀ b ∈ l', ∀ s ∈ b.slots, P s := by
  intro l
  induction l with
  | nil => intro l' heq; simp [ptrRemoveChain] at heq
  | cons b rest ih =>
    intro l' heq hP
    cases hs : ptrRemoveSlots h key b.slots with
    | some slots' =>
      rw [ptrRemoveChain, hs] at heq
      simp only [Option.some.injEq] at heq
      subst heq
      intro b' hb'
      rcases List.mem_cons.mp hb' with h1 | h1
      · subst h1
        exact ptrRemoveSlots_pres P h key hempty _ slots' hs (hP b (List.mem_cons_self b rest))
      · exact hP b' (List.mem_cons_of_mem b h1)
    | none =>
      rw [ptrRemoveChain, hs] at heq
      cases hr : ptrRemoveChain h key rest with
      | none => rw [hr] at heq; cases heq
      | some rest' =>
        rw [hr] at heq
        simp only [Option.some.injEq] at heq
        subst heq
        intro b' hb'
        rcases List.mem_cons.mp hb' with h1 | h1
        · rw [h1]; exact hP b (List.mem_cons_self b rest)
        · exact ih rest' hr (fun t ht => hP t (List.mem_cons_of_mem b ht)) b' h1

theorem ptrTableSlots_create (P : SlotPtr → Prop) (hempty : P emptySlotPtr) (capacity : Nat) :
    ∀ idx, ∀ b ∈ (hashtable_ptr_create capacity).buckets.getD idx [], ∀ s ∈ b.slots, P s := by
  intro idx b hb s hs
  simp only [hashtable_ptr_create] at hb
  rw [getD_replicate] at hb
  by_cases hlt : idx < growSize (capacity / 3 + 1) 1 (capacity / 3)
  · rw [if_pos hlt] at hb
    simp only [List.mem_singleton] at hb
    subst hb
    simp only [emptyBucketPtr, List.mem_replicate] at hs
    rw [hs.2]
    exact hempty
  · rw [if_neg hlt] at hb
    cases hb

theorem ptrTableSlots_put (P : SlotPtr → Prop) (ht : HashtablePtr) (key : List Nat) (v : Nat)
    (hval : ∀ s, P s → P { s with val := v })
    (hent : P ⟨hash_string key, key, key.length % 2 ^ 16, v⟩)
    (hempty : P emptySlotPtr)
    (hP : ∀ idx, ∀ b ∈ ht.buckets.getD idx [], ∀ s ∈ b.slots, P s) :
    ∀ idx, ∀ b ∈ (hashtable_ptr_put ht key v).1.buckets.getD idx [], ∀ s ∈ b.slots, P s := by
  intro idx b hb
  simp only [hashtable_ptr_put] at hb
  rw [getD_set_ite] at hb
  by_cases hc : idx = (hash_string key &&& ht.mask) ∧
      (hash_string key &&& ht.mask) < ht.buckets.length
  · rw [if_pos hc] at hb
    exact ptrPutChain_pres P (hash_string key) key v hval hent hempty _
      (hP (hash_string key &&& ht.mask)) b hb
  · rw [if_neg hc] at hb
    exact hP idx b hb

theorem ptrTableSlots_remove (P : SlotPtr → Prop) (ht : HashtablePtr) (key : List Nat)
    (hempty : P emptySlotPtr)
    (hP : ∀ idx, ∀ b ∈ ht.buckets.getD idx [], ∀ s ∈ b.slots, P s) :
    ∀ idx, ∀ b ∈ (hashtable_ptr_remove ht key).1.buckets.getD idx [], ∀ s ∈ b.slots, P s := by
  simp only [hashtable_ptr_remove]
  cases hr : ptrRemoveChain (hash_string key) key
      (ht.buckets.getD (hash_string key &&& ht.mask) []) with
  | some chain' =>
    simp only [hr]
    intro idx b hb
    rw [getD_set_ite] at hb
    by_cases hc : idx = (hash_string key &&& ht.mask) ∧
        (hash_string key &&& ht.mask) < ht.buckets.length
    · rw [if_pos hc] at hb
      exact ptrRemoveChain_pres P (hash_string key) key hempty _ chain' hr
        (hP (hash_string key &&& ht.mask)) b hb
    · rw [if_neg hc] at hb
      exact hP idx b hb
  | none =>
    simp only [hr]
    exact hP

theorem ptrTableSlots_run (P : SlotPtr → Prop)
    (hempty : P emptySlotPtr)
    (hval : ∀ s v, P s → P { s with val := v }) :
    ∀ ops ht,
      (∀ key v, PtrOp.put key v ∈ ops → P ⟨hash_string key, key, key.length % 2 ^ 16, v⟩) →
      (∀ idx, ∀ b ∈ ht.buckets.getD idx [], ∀ s ∈ b.slots, P s) →
      ∀ idx, ∀ b ∈ (ptrRun ht ops).buckets.getD idx [], ∀ s ∈ b.slots, P s := by
  intro ops
  induction ops with
  | nil => intro ht _ hP; exact hP
  | cons op rest ih =>
    intro ht hops hP
    cases op with
    | put key v =>
      rw [ptrRun]
      refine ih _ (fun k w hw => hops k w (List.mem_cons_of_mem _ hw)) ?_
      exact ptrTableSlots_put P ht key v (fun s => hval s v)
        (hops key v (List.mem_cons_self _ rest)) hempty hP
    | del key =>
      rw [ptrRun]
      refine ih _ (fun k w hw => hops k w (List.mem_cons_of_mem _ hw)) ?_
      exact ptrTableSlots_remove P ht key hempty hP

theorem strcmp_simd_eq_zero (a b : List Nat) (n : Nat) :
    strcmp_simd a b n = 0 ↔ a.take n = b.take n := by
  unfold strcmp_simd
  by_cases h : a.take n = b.take n <;> simp [h]

theorem invPtr_getSlots_miss (G : List Nat → Prop) (key : List Nat)
    (hkey : key ≠ []) (hG : ∀ k, G k → k ≠ key) :
    ∀ l, (∀ s ∈ l, slotPtrEmptyLike s ∨ ∃ k, G k ∧ slotPtrHolds s k) →
      ptrGetSlots (hash_string key) key l = none ∨
        ptrGetSlots (hash_string key) key l = some UINTPTR_MAX := by
  intro l
  induction l with
  | nil => intro _; exact Or.inl rfl
  | cons s rest ih =>
    intro hP
    have hnc : ¬ (s.key_hash = hash_string key ∧ s.key_len = key.length ∧
        strcmp_simd key s.key_ptr key.length = 0) := by
      rintro ⟨h1, h2, h3⟩
      rcases hP s (List.mem_cons_self s rest) with he | ⟨k, hGk, hk⟩
      · exact hkey (List.eq_nil_of_length_eq_zero (by rw [← h2, he.2.2]))
      · have hklen : k.length = key.length := by rw [← h2, hk.2.1]
        have heqk : key = k := by
          have := (strcmp_simd_eq_zero key s.key_ptr key.length).mp h3
          rw [hk.1] at this
          rw [List.take_length, ← hklen, List.take_length] at this
          exact this
        exact hG k hGk (heqk.symm)
    rw [ptrGetSlots, if_neg hnc]
    by_cases hz : s.key_hash = 0
    · rw [if_pos hz]
      exact Or.inr rfl
    · rw [if_neg hz]
      exact ih (fun t ht => hP t (List.mem_cons_of_mem s ht))

theorem invPtr_getChain_miss (G : List Nat → Prop) (key : List Nat)
    (hkey : key ≠ []) (hG : ∀ k, G k → k ≠ key) :
    ∀ l, (∀ b ∈ l, ∀ s ∈ b.slots, slotPtrEmptyLike s ∨ ∃ k, G k ∧ slotPtrHolds s k) →
      ptrGetChain (hash_string key) key l = UINTPTR_MAX := by
  intro l
  induction l with
  | nil => intro _; rfl
  | cons b rest ih =>
    intro hP
    rcases invPtr_getSlots_miss G key hkey hG b.slots (hP b (List.mem_cons_self b rest)) with
      hn | hs
    · rw [ptrGetChain, hn]
      exact ih (fun t ht => hP t (List.mem_cons_of_mem b ht))
    · rw [ptrGetChain, hs]

theorem mem_putKeys_of_put (k : List Nat) (v : Nat) :
    ∀ ops : List PtrOp, PtrOp.put k v ∈ ops → k ∈ putKeys ops := by
  intro ops
  induction ops with
  | nil => intro h; cases h
  | cons op rest ih =>
    intro h
    rcases List.mem_cons.mp h with h1 | h1
    · rw [← h1, putKeys]
      exact List.mem_cons_self k _
    · cases op with
      | put k' v' => exact List.mem_cons_of_mem k' (ih h1)
      | del k' => exact ih h1

/-- Claim C5 (counterexample): the claim asserts that lookup of a
never-inserted key returns `UINTPTR_MAX` *including for the empty key*.  It
does not: `hash_string` maps the empty key to 0, so on a freshly created
pointer-variant table the lookup of the empty key matches the zeroed slot 0
(`key_hash == 0 == hash`, `key_len == 0 == len`, and `strcmp_simd` compares
zero bytes) and returns that slot's value 0, not the NOT_FOUND sentinel. -/
theorem c5_absence_cex : hashtable_ptr_get (hashtable_ptr_create 1) [] ≠ UINTPTR_MAX := by
  decide

/-- Claim C5 (amended): for the pointer variant, lookup of a **nonempty** key
that was never inserted returns the NOT_FOUND sentinel `UINTPTR_MAX`, on
every table built by any sequence of inserts and removes in which the
inserted keys have length below `2 ^ 16` (so that the stored `uint16_t`
length fields are exact).  Keys whose content hash is 0 are covered; only the
empty key is excluded, since its lookup can return a zeroed slot's value
instead of the sentinel (see the counterexample). -/
theorem c5_absence_amended (ops : List PtrOp) (capacity : Nat) (key : List Nat)
    (hops : ∀ k, k ∈ putKeys ops → k.length < 2 ^ 16)
    (hkey : key ≠ []) (hnotin : key ∉ putKeys ops) :
    hashtable_ptr_get (ptrRun (hashtable_ptr_create capacity) ops) key = UINTPTR_MAX := by
  have hP : ∀ idx, ∀ b ∈ (ptrRun (hashtable_ptr_create capacity) ops).buckets.getD idx [],
      ∀ s ∈ b.slots, slotPtrEmptyLike s ∨ ∃ k, k ∈ putKeys ops ∧ slotPtrHolds s k := by
    refine ptrTableSlots_run _ (Or.inl ⟨rfl, rfl, rfl⟩) ?_ ops _ ?_
      (ptrTableSlots_create _ (Or.inl ⟨rfl, rfl, rfl⟩) capacity)
    · rintro s v (he | ⟨k, hk1, hk2⟩)
      · exact Or.inl he
      · exact Or.inr ⟨k, hk1, hk2⟩
    · intro k v hkv
      have hmem := mem_putKeys_of_put k v ops hkv
      have hlen := hops k hmem
      exact Or.inr ⟨k, hmem, rfl, Nat.mod_eq_of_lt hlen, hlen, rfl⟩
  exact invPtr_getChain_miss _ key hkey (fun k hk heq => hnotin (heq ▸ hk)) _
    (hP (hash_string key &&& (ptrRun (hashtable_ptr_create capacity) ops).mask))

/-- Claim C5 (witness): the amended theorem at a concrete run — insert
`"a" ↦ 5` into a fresh single-bucket table, then look up the never-inserted
key `"b"`. -/
theorem c5_absence_amended_witness :
    hashtable_ptr_get (ptrRun (hashtable_ptr_create 1) [PtrOp.put [97] 5]) [98] =
      UINTPTR_MAX :=
  c5_absence_amended [PtrOp.put [97] 5] 1 [98] (by decide) (by decide) (by decide)

theorem ptrLensOk_forall (ht : HashtablePtr) (h : ptrLensOk ht = true) :
    ∀ idx, ∀ b ∈ ht.buckets.getD idx [], ∀ s ∈ b.slots, s.key_len < 2 ^ 16 := by
  intro idx b hb s hs
  rcases Nat.lt_or_ge idx ht.buckets.length with hlt | hge
  · rw [List.getD_eq_getElem ht.buckets [] hlt] at hb
    have hmem : ht.buckets[idx] ∈ ht.buckets := List.getElem_mem hlt
    simp only [ptrLensOk, List.all_eq_true, decide_eq_true_eq] at h
    exact h _ hmem b hb s hs
  · rw [List.getD_eq_default ht.buckets [] hge] at hb
    cases hb

theorem taggedLensOk_forall (ht : HashtableTagged) (h : taggedLensOk ht = true) :
    ∀ idx, ∀ b ∈ ht.buckets.getD idx [], ∀ s ∈ b.slots, s.key_len < 2 ^ 16 := by
  intro idx b hb s hs
  rcases Nat.lt_or_ge idx ht.buckets.length with hlt | hge
  · rw [List.getD_eq_getElem ht.buckets [] hlt] at hb
    have hmem : ht.buckets[idx] ∈ ht.buckets := List.getElem_mem hlt
    simp only [taggedLensOk, List.all_eq_true, decide_eq_true_eq] at h
    exact h _ hmem b hb s hs
  · rw [List.getD_eq_default ht.buckets [] hge] at hb
    cases hb

theorem ptrGetSlots_bigkey (h : Nat) (key : List Nat) (hlen : 2 ^ 16 ≤ key.length) :
    ∀ l, (∀ s ∈ l, s.key_len < 2 ^ 16) →
      ptrGetSlots h key l = none ∨ ptrGetSlots h key l = some UINTPTR_MAX := by
  intro l
  induction l with
  | nil => intro _; exact Or.inl rfl
  | cons s rest ih =>
    intro hP
    have hnc : ¬ (s.key_hash = h ∧ s.key_len = key.length ∧
        strcmp_simd key s.key_ptr key.length = 0) := by
      rintro ⟨-, h2, -⟩
      have := hP s (List.mem_cons_self s rest)
      omega
    rw [ptrGetSlots, if_neg hnc]
    by_cases hz : s.key_hash = 0
    · rw [if_pos hz]; exact Or.inr rfl
    · rw [if_neg hz]; exact ih (fun t ht => hP t (List.mem_cons_of_mem s ht))

theorem ptrGetChain_bigkey (h : Nat) (key : List Nat) (hlen : 2 ^ 16 ≤ key.length) :
    ∀ l, (∀ b ∈ l, ∀ s ∈ b.slots, s.key_len < 2 ^ 16) →
      ptrGetChain h key l = UINTPTR_MAX := by
  intro l
  induction l with
  | nil => intro _; rfl
  | cons b rest ih =>
    intro hP
    rcases ptrGetSlots_bigkey h key hlen b.slots (hP b (List.mem_cons_self b rest)) with hn | hs
    · rw [ptrGetChain, hn]
      exact ih (fun t ht => hP t (List.mem_cons_of_mem b ht))
    · rw [ptrGetChain, hs]

theorem taggedGetSlots_bigkey (tag h : Nat) (key : List Nat) (hlen : 2 ^ 16 ≤ key.length) :
    ∀ l, (∀ s ∈ l, s.key_len < 2 ^ 16) → taggedGetSlots tag h key l = none := by
  intro l
  induction l with
  | nil => intro _; rfl
  | cons s rest ih =>
    intro hP
    have hnc : ¬ taggedMatches tag h key s := by
      rintro ⟨-, -, h3, -⟩
      have := hP s (List.mem_cons_self s rest)
      omega
    rw [taggedGetSlots, if_neg hnc]
    exact ih (fun t ht => hP t (List.mem_cons_of_mem s ht))

theorem taggedGetChain_bigkey (tag h : Nat) (key : List Nat) (hlen : 2 ^ 16 ≤ key.length) :
    ∀ l, (∀ b ∈ l, ∀ s ∈ b.slots, s.key_len < 2 ^ 16) →
      taggedGetChain tag h key l = UINTPTR_MAX := by
  intro l
  induction l with
  | nil => intro _; rfl
  | cons b rest ih =>
    intro hP
    rw [taggedGetChain, taggedGetSlots_bigkey tag h key hlen b.slots
      (hP b (List.mem_cons_self b rest))]
    by_cases hz : b.count = 0
    · rw [if_pos hz]
    · rw [if_neg hz]
      exact ih (fun t ht => hP t (List.mem_cons_of_mem b ht))

theorem taggedGetChain_full_or_max (tag h : Nat) (key : List Nat) :
    ∀ l, taggedGetChain tag h key l = taggedGetChainFull tag h key l ∨
      taggedGetChain tag h key l = UINTPTR_MAX := by
  intro l
  induction l with
  | nil => exact Or.inl rfl
  | cons b rest ih =>
    cases hs : taggedGetSlots tag h key b.slots with
    | some v => exact Or.inl (by rw [taggedGetChain, taggedGetChainFull, hs])
    | none =>
      by_cases hz : b.count = 0
      · rw [taggedGetChain, hs]
        exact Or.inr (by rw [if_pos hz])
      · rw [taggedGetChain, taggedGetChainFull, hs, if_neg hz]
        exact ih

theorem taggedUpdateSlots_get (tag h : Nat) (key : List Nat) (v : Nat) :
    ∀ l l', taggedUpdateSlots tag h key v l = some l' →
      taggedGetSlots tag h key l' = some v := by
  intro l
  induction l with
  | nil => intro l' heq; simp [taggedUpdateSlots] at heq
  | cons s rest ih =>
    intro l' heq
    by_cases hc : taggedMatches tag h key s
    · simp only [taggedUpdateSlots, if_pos hc, Option.some.injEq] at heq
      subst heq
      have hc' : taggedMatches tag h key { s with val := v } := hc
      rw [taggedGetSlots, if_pos hc']
    · simp only [taggedUpdateSlots, if_neg hc] at heq
      cases hr : taggedUpdateSlots tag h key v rest with
      | none => rw [hr] at heq; cases heq
      | some rest' =>
        rw [hr] at heq
        simp only [Option.some.injEq] at heq
        subst heq
        rw [taggedGetSlots, if_neg hc]
        exact ih rest' hr

theorem taggedUpdateSlots_none_forall (tag h : Nat) (key : List Nat) (v : Nat) :
    ∀ l, taggedUpdateSlots tag h key v l = none → ∀ s ∈ l, ¬ taggedMatches tag h key s := by
  intro l
  induction l with
  | nil => intro _ s hs; cases hs
  | cons s rest ih =>
    intro heq s' hs'
    by_cases hc : taggedMatches tag h key s
    · simp [taggedUpdateSlots, if_pos hc] at heq
    · simp only [taggedUpdateSlots, if_neg hc] at heq
      rcases List.mem_cons.mp hs' with h1 | h1
      · rw [h1]; exact hc
      · cases hr : taggedUpdateSlots tag h key v rest with
        | none => exact ih hr s' h1
        | some r => rw [hr] at heq; cases heq

theorem taggedGetSlots_none_of_nomatch (tag h : Nat) (key : List Nat) :
    ∀ l, (∀ s ∈ l, ¬ taggedMatches tag h key s) → taggedGetSlots tag h key l = none := by
  intro l
  induction l with
  | nil => intro _; rfl
  | cons s rest ih =>
    intro hP
    rw [taggedGetSlots, if_neg (hP s (List.mem_cons_self s rest))]
    exact ih (fun t ht => hP t (List.mem_cons_of_mem s ht))

theorem taggedUpdateChain_getFull (tag h : Nat) (key : List Nat) (v : Nat) :
    ∀ l l', taggedUpdateChain tag h key v l = some l' →
      taggedGetChainFull tag h key l' = v := by
  intro l
  induction l with
  | nil => intro l' heq; simp [taggedUpdateChain] at heq
  | cons b rest ih =>
    intro l' heq
    cases hs : taggedUpdateSlots tag h key v b.slots with
    | some slots' =>
      rw [taggedUpdateChain, hs] at heq
      simp only [Option.some.injEq] at heq
      subst heq
      have hgs : taggedGetSlots tag h key
          ({ b with slots := slots' } : BucketTagged).slots = some v := by
        show taggedGetSlots tag h key slots' = some v
        exact taggedUpdateSlots_get tag h key v b.slots slots' hs
      rw [taggedGetChainFull, hgs]
    | none =>
      rw [taggedUpdateChain, hs] at heq
      cases hr : taggedUpdateChain tag h key v rest with
      | none => rw [hr] at heq; cases heq
      | some rest' =>
        rw [hr] at heq
        simp only [Option.some.injEq] at heq
        subst heq
        rw [taggedGetChainFull, taggedGetSlots_none_of_nomatch tag h key b.slots
          (taggedUpdateSlots_none_forall tag h key v b.slots hs)]
        exact ih rest' hr

theorem taggedUpdateChain_none_parts (tag h : Nat) (key : List Nat) (v : Nat)
    (b : BucketTagged) (rest : List BucketTagged)
    (heq : taggedUpdateChain tag h key v (b :: rest) = none) :
    taggedUpdateSlots tag h key v b.slots = none ∧
      taggedUpdateChain tag h key v rest = none := by
  cases hs : taggedUpdateSlots tag h key v b.slots with
  | some slots' => rw [taggedUpdateChain, hs] at heq; cases heq
  | none =>
    refine ⟨rfl, ?_⟩
    rw [taggedUpdateChain, hs] at heq
    cases hr : taggedUpdateChain tag h key v rest with
    | none => rfl
    | some rest' => rw [hr] at heq; cases heq

theorem taggedInsertSlots_getSlots (tag h : Nat) (key : List Nat) (e : SlotTagged)
    (he : taggedMatches tag h key e) :
    ∀ l, (∀ s ∈ l, ¬ taggedMatches tag h key s) → (l.any fun s => s.tag == 0) = true →
      taggedGetSlots tag h key (taggedInsertSlots e l) = some e.val := by
  intro l
  induction l with
  | nil => intro _ hany; cases hany
  | cons s rest ih =>
    intro hP hany
    by_cases hz : s.tag = 0
    · rw [taggedInsertSlots, if_pos hz, taggedGetSlots, if_pos he]
    · rw [taggedInsertSlots, if_neg hz, taggedGetSlots,
        if_neg (hP s (List.mem_cons_self s rest))]
      refine ih (fun t ht => hP t (List.mem_cons_of_mem s ht)) ?_
      simp only [List.any_cons, Bool.or_eq_true, beq_iff_eq] at hany
      rcases hany with h1 | h1
      · exact absurd h1 hz
      · exact h1

theorem taggedInsertGo_getFull (tag h : Nat) (key : List Nat) (e : SlotTagged)
    (he : taggedMatches tag h key e) (htag : tag ≠ 0) :
    ∀ l, (∀ b ∈ l, ∀ s ∈ b.slots, ¬ taggedMatches tag h key s) →
      taggedGetChainFull tag h key (taggedInsertGo e l).1 = e.val := by
  intro l
  induction l with
  | nil =>
    intro _
    have hnomatch : ∀ s ∈ emptyBucketTagged.slots, ¬ taggedMatches tag h key s := by
      intro s hs
      simp only [emptyBucketTagged, List.mem_replicate] at hs
      rw [hs.2]
      rintro ⟨h1, -, -⟩
      exact htag (by simpa [emptySlotTagged] using h1.symm)
    have hgs : taggedGetSlots tag h key
        ({ emptyBucketTagged with slots := taggedInsertSlots e emptyBucketTagged.slots } :
          BucketTagged).slots = some e.val := by
      show taggedGetSlots tag h key (taggedInsertSlots e emptyBucketTagged.slots) = some e.val
      exact taggedInsertSlots_getSlots tag h key e he emptyBucketTagged.slots hnomatch
        (by simp [emptyBucketTagged, emptySlotTagged])
    rw [taggedInsertGo, taggedGetChainFull, hgs]
  | cons b rest ih =>
    intro hP
    by_cases hc : taggedHasEmpty b = true
    · have hgs : taggedGetSlots tag h key
          ({ b with slots := taggedInsertSlots e b.slots } : BucketTagged).slots =
            some e.val := by
        show taggedGetSlots tag h key (taggedInsertSlots e b.slots) = some e.val
        exact taggedInsertSlots_getSlots tag h key e he b.slots
          (hP b (List.mem_cons_self b rest)) (by simpa [taggedHasEmpty] using hc)
      rw [taggedInsertGo, if_pos hc, taggedGetChainFull, hgs]
    · have hbump : ∀ c : BucketTagged, (bumpCount c).slots = c.slots := by
        intro c; unfold bumpCount; split <;> rfl
      have hgs : taggedGetSlots tag h key
          (if (taggedInsertGo e rest).2 then bumpCount (bumpCount b)
            else bumpCount b).slots = none := by
        have hn := taggedGetSlots_none_of_nomatch tag h key b.slots
          (hP b (List.mem_cons_self b rest))
        split <;> simp [hbump, hn]
      rw [taggedInsertGo, if_neg hc, taggedGetChainFull, hgs]
      exact ih (fun t ht => hP t (List.mem_cons_of_mem b ht))

theorem taggedUpdateChain_none_forall (tag h : Nat) (key : List Nat) (v : Nat) :
    ∀ l, taggedUpdateChain tag h key v l = none →
      ∀ b ∈ l, ∀ s ∈ b.slots, ¬ taggedMatches tag h key s := by
  intro l
  induction l with
  | nil => intro _ b hb; cases hb
  | cons b rest ih =>
    intro heq b' hb'
    obtain ⟨h1, h2⟩ := taggedUpdateChain_none_parts tag h key v b rest heq
    rcases List.mem_cons.mp hb' with h3 | h3
    · rw [h3]; exact taggedUpdateSlots_none_forall tag h key v b.slots h1
    · exact ih h2 b' h3

/-- Claim C9: the NOT_FOUND sentinel of lookup is `UINTPTR_MAX`, and
`UINTPTR_MAX` is also an accepted stored value: for both the pointer and the
tagged variant, and for every key and every table whose stored `uint16_t`
length fields are in range (true of any table the C code can build), after
`insert(T, k, UINTPTR_MAX)` the lookup of `k` returns `UINTPTR_MAX` — the
same word lookup returns when a key is absent, so at the public interface a
stored `UINTPTR_MAX` is indistinguishable from absence. -/
theorem c9_sentinel_insertable :
    (∀ ht key, ptrLensOk ht = true →
      hashtable_ptr_get (hashtable_ptr_put ht key UINTPTR_MAX).1 key = UINTPTR_MAX) ∧
      (∀ ht key, taggedLensOk ht = true →
        hashtable_tagged_get (hashtable_tagged_put ht key UINTPTR_MAX).1 key =
          UINTPTR_MAX) := by
  constructor
  · intro ht key hlens
    rcases Nat.lt_or_ge key.length (2 ^ 16) with hlen | hlen
    · simp only [hashtable_ptr_put, hashtable_ptr_get]
      rw [getD_set_ite]
      by_cases hidx : (hash_string key &&& ht.mask) < ht.buckets.length
      · rw [if_pos ⟨rfl, hidx⟩]
        exact ptrPutChain_roundtrip _ key _ hlen _
      · rw [if_neg (fun hcon => hidx hcon.2),
          List.getD_eq_default _ _ (le_of_not_lt hidx)]
        rfl
    · have hP := ptrTableSlots_put (fun s => s.key_len < 2 ^ 16) ht key UINTPTR_MAX
        (fun s hs => hs)
        (show key.length % 2 ^ 16 < 2 ^ 16 from Nat.mod_lt _ (by norm_num))
        (show emptySlotPtr.key_len < 2 ^ 16 by norm_num [emptySlotPtr])
        (ptrLensOk_forall ht hlens)
      simp only [hashtable_ptr_get]
      exact ptrGetChain_bigkey _ key hlen _ (hP _)
  · intro ht key hlens
    rcases Nat.lt_or_ge key.length (2 ^ 16) with hlen | hlen
    · simp only [hashtable_tagged_put, hashtable_tagged_get]
      cases hu : taggedUpdateChain (taggedTag (hash_string key)) (hash_string key) key
          UINTPTR_MAX (ht.buckets.getD (hash_string key &&& ht.mask) []) with
      | some chain' =>
        simp only [hu]
        rw [getD_set_ite]
        by_cases hidx : (hash_string key &&& ht.mask) < ht.buckets.length
        · rw [if_pos ⟨rfl, hidx⟩]
          rcases taggedGetChain_full_or_max (taggedTag (hash_string key)) (hash_string key)
            key chain' with hfull | hmax
          · rw [hfull, taggedUpdateChain_getFull _ _ key _ _ chain' hu]
          · rw [hmax]
        · exfalso
          rw [List.getD_eq_default _ _ (le_of_not_lt hidx)] at hu
          simp [taggedUpdateChain] at hu
      | none =>
        simp only [hu]
        rw [getD_set_ite]
        by_cases hidx : (hash_string key &&& ht.mask) < ht.buckets.length
        · rw [if_pos ⟨rfl, hidx⟩]
          have he : taggedMatches (taggedTag (hash_string key)) (hash_string key) key
              ⟨taggedTag (hash_string key), hash_string key, key, key.length % 2 ^ 16,
                UINTPTR_MAX⟩ := by
            refine ⟨rfl, rfl, Nat.mod_eq_of_lt hlen, ?_⟩
            simp [strcmp_simd]
          have htag : taggedTag (hash_string key) ≠ 0 := by
            have := (taggedTag_bound (hash_string key)).1
            omega
          rcases taggedGetChain_full_or_max (taggedTag (hash_string key)) (hash_string key)
            key (taggedInsertGo _ (ht.buckets.getD (hash_string key &&& ht.mask) [])).1 with
            hfull | hmax
          · rw [hfull, taggedInsertGo_getFull _ _ key _ he htag _
              (taggedUpdateChain_none_forall _ _ key UINTPTR_MAX _ hu)]
          · rw [hmax]
        · rw [if_neg (fun hcon => hidx hcon.2),
            List.getD_eq_default _ _ (le_of_not_lt hidx)]
          rfl
    · have hP := taggedTableSlots_put (fun s => s.key_len < 2 ^ 16) ht key UINTPTR_MAX
        (fun s hs => hs)
        (show emptySlotTagged.key_len < 2 ^ 16 by norm_num [emptySlotTagged])
        (show key.length % 2 ^ 16 < 2 ^ 16 from Nat.mod_lt _ (by norm_num))
        (taggedLensOk_forall ht hlens)
      simp only [hashtable_tagged_get]
      exact taggedGetChain_bigkey _ _ key hlen _ (hP _)

/-- Claim C9 (witness): the theorem at a concrete input — inserting
`UINTPTR_MAX` under the one-byte key `"a"` into fresh single-bucket tables of
both variants and looking the key up. -/
theorem c9_sentinel_insertable_witness :
    hashtable_ptr_get (hashtable_ptr_put (hashtable_ptr_create 1) [97] UINTPTR_MAX).1 [97] =
        UINTPTR_MAX ∧
      hashtable_tagged_get (hashtable_tagged_put (hashtable_tagged_create 1) [97]
        UINTPTR_MAX).1 [97] = UINTPTR_MAX :=
  ⟨c9_sentinel_insertable.1 (hashtable_ptr_create 1) [97] (by decide),
   c9_sentinel_insertable.2 (hashtable_tagged_create 1) [97] (by decide)⟩

theorem tagged_put_fresh (key : List Nat) (v : Nat) :
    (hashtable_tagged_put (hashtable_tagged_create 1) key v).1 =
      { mask := 0,
        buckets := [[⟨0, [⟨taggedTag (hash_string key), hash_string key, key,
          key.length % 2 ^ 16, v⟩, emptySlotTagged, emptySlotTagged, emptySlotTagged]⟩]],
        num_elements := 1 } := by
  have htag : (0 : Nat) ≠ taggedTag (hash_string key) := by
    have := (taggedTag_bound (hash_string key)).1
    omega
  have hcreate : hashtable_tagged_create 1 =
      { mask := 0, buckets := [[emptyBucketTagged]], num_elements := 0 } := rfl
  have hnomatch : ∀ s ∈ emptyBucketTagged.slots,
      ¬ taggedMatches (taggedTag (hash_string key)) (hash_string key) key s := by
    intro s hs
    simp only [emptyBucketTagged, List.mem_replicate] at hs
    rw [hs.2]
    rintro ⟨h1, -, -⟩
    exact htag (by simpa [emptySlotTagged] using h1)
  have hupd : taggedUpdateChain (taggedTag (hash_string key)) (hash_string key) key v
      [emptyBucketTagged] = none := by
    have hs : taggedUpdateSlots (taggedTag (hash_string key)) (hash_string key) key v
        emptyBucketTagged.slots = none := by
      simp [emptyBucketTagged, emptySlotTagged, taggedUpdateSlots, taggedMatches, htag]
    rw [taggedUpdateChain, hs, taggedUpdateChain]
  have hgd : ([[emptyBucketTagged]] : List (List BucketTagged)).getD 0 [] =
      [emptyBucketTagged] := rfl
  simp only [hashtable_tagged_put, hcreate, Nat.and_zero, hgd, hupd]
  simp [taggedInsertGo, taggedHasEmpty, taggedInsertSlots, emptyBucketTagged, emptySlotTagged]

theorem pooled_put_fresh (key : List Nat) (v : Nat) :
    (hashtable_pooled_put (hashtable_pooled_create 1) key v).1 =
      { mask := 0,
        buckets := [[⟨[⟨hash_string key, 0, key.length % 2 ^ 16, v⟩,
          emptySlotPooled, emptySlotPooled]⟩]],
        num_elements := 1,
        pool := { data := key ++ List.replicate ((key.length + 1 + 7) / 8 * 8 - key.length) 0,
                  used := (key.length + 1 + 7) / 8 * 8 } } := by
  have hnomatch : ∀ s, s.offset = 0 → ¬ pooledMatches emptyKeyPool (hash_string key) key s := by
    intro s hoff
    rintro ⟨-, hrest⟩
    rw [hoff] at hrest
    simp [poolGet, emptyKeyPool] at hrest
  have hcreate : hashtable_pooled_create 1 =
      { mask := 0, buckets := [[emptyBucketPooled]], num_elements := 0,
        pool := emptyKeyPool } := rfl
  have hupd : pooledUpdateChain emptyKeyPool (hash_string key) key v
      [emptyBucketPooled] = none := by
    have hs : pooledUpdateSlots emptyKeyPool (hash_string key) key v
        emptyBucketPooled.keys = none := by
      simp [emptyBucketPooled, emptySlotPooled, pooledUpdateSlots,
        hnomatch (⟨0, 0, 0, 0⟩ : SlotPooled) rfl]
    rw [pooledUpdateChain, hs, pooledUpdateChain]
  have hgd : ([[emptyBucketPooled]] : List (List BucketPooled)).getD 0 [] =
      [emptyBucketPooled] := rfl
  simp only [hashtable_pooled_put, hcreate, Nat.and_zero, hgd, hupd]
  simp [poolAlloc, emptyKeyPool, pooledInsertChain, pooledInsertSlots,
    emptyBucketPooled, emptySlotPooled]

theorem ptr_remove_fresh_false (key : List Nat) (L v : Nat)
    (hL : L ≠ key.length) (h0 : key.length ≠ 0) :
    (hashtable_ptr_remove
      { mask := 0,
        buckets := [[⟨[⟨hash_string key, key, L, v⟩, emptySlotPtr, emptySlotPtr]⟩]],
        num_elements := 1 } key).2 = false := by
  have h0' : (0 : Nat) ≠ key.length := Ne.symm h0
  simp only [hashtable_ptr_remove, Nat.and_zero]
  simp [ptrRemoveChain, ptrRemoveSlots, hL, h0', emptySlotPtr]

theorem tagged_get_fresh_miss (key : List Nat) (L v : Nat) (hL : L ≠ key.length) :
    hashtable_tagged_get
      { mask := 0,
        buckets := [[⟨0, [⟨taggedTag (hash_string key), hash_string key, key, L, v⟩,
          emptySlotTagged, emptySlotTagged, emptySlotTagged]⟩]],
        num_elements := 1 } key = UINTPTR_MAX := by
  have htag : (0 : Nat) ≠ taggedTag (hash_string key) := by
    have := (taggedTag_bound (hash_string key)).1
    omega
  simp only [hashtable_tagged_get, Nat.and_zero]
  simp [taggedGetChain, taggedGetSlots, taggedMatches, hL, htag, emptySlotTagged]

theorem tagged_remove_fresh_false (key : List Nat) (L v : Nat) (hL : L ≠ key.length) :
    (hashtable_tagged_remove
      { mask := 0,
        buckets := [[⟨0, [⟨taggedTag (hash_string key), hash_string key, key, L, v⟩,
          emptySlotTagged, emptySlotTagged, emptySlotTagged]⟩]],
        num_elements := 1 } key).2 = false := by
  have htag : (0 : Nat) ≠ taggedTag (hash_string key) := by
    have := (taggedTag_bound (hash_string key)).1
    omega
  simp only [hashtable_tagged_remove, Nat.and_zero]
  simp [taggedRemoveGo, taggedRemoveSlots, taggedMatches, hL, htag, emptySlotTagged]

theorem pooled_fresh_pool_pos (key : List Nat) :
    0 < (key.length + 1 + 7) / 8 * 8 := by
  omega

theorem pooled_get_fresh_miss (key : List Nat) (L v : Nat)
    (hL : L ≠ key.length) (h0 : key.length ≠ 0) :
    hashtable_pooled_get
      { mask := 0,
        buckets := [[⟨[⟨hash_string key, 0, L, v⟩, emptySlotPooled, emptySlotPooled]⟩]],
        num_elements := 1,
        pool := { data := key ++ List.replicate ((key.length + 1 + 7) / 8 * 8 - key.length) 0,
                  used := (key.length + 1 + 7) / 8 * 8 } } key = UINTPTR_MAX := by
  have h0' : (0 : Nat) ≠ key.length := Ne.symm h0
  have hget0 : poolGet
      { data := key ++ List.replicate ((key.length + 1 + 7) / 8 * 8 - key.length) 0,
        used := (key.length + 1 + 7) / 8 * 8 } 0 =
      some (key ++ List.replicate ((key.length + 1 + 7) / 8 * 8 - key.length) 0) := by
    simp [poolGet, Nat.not_le.mpr (pooled_fresh_pool_pos key)]
  simp only [hashtable_pooled_get, Nat.and_zero]
  by_cases hz : hash_string key = 0
  · simp [pooledGetChain, pooledGetSlots, pooledMatches, hget0, hL, h0', hz]
  · have hz' : (0 : Nat) ≠ hash_string key := Ne.symm hz
    simp [pooledGetChain, pooledGetSlots, pooledMatches, hget0, hL, h0', hz, hz',
      emptySlotPooled, poolGet, Nat.not_le.mpr (pooled_fresh_pool_pos key)]

theorem pooled_remove_fresh_false (key : List Nat) (L v : Nat)
    (hL : L ≠ key.length) (h0 : key.length ≠ 0) :
    (hashtable_pooled_remove
      { mask := 0,
        buckets := [[⟨[⟨hash_string key, 0, L, v⟩, emptySlotPooled, emptySlotPooled]⟩]],
        num_elements := 1,
        pool := { data := key ++ List.replicate ((key.length + 1 + 7) / 8 * 8 - key.length) 0,
                  used := (key.length + 1 + 7) / 8 * 8 } } key).2 = false := by
  have h0' : (0 : Nat) ≠ key.length := Ne.symm h0
  have hget0 : poolGet
      { data := key ++ List.replicate ((key.length + 1 + 7) / 8 * 8 - key.length) 0,
        used := (key.length + 1 + 7) / 8 * 8 } 0 =
      some (key ++ List.replicate ((key.length + 1 + 7) / 8 * 8 - key.length) 0) := by
    simp [poolGet, Nat.not_le.mpr (pooled_fresh_pool_pos key)]
  simp only [hashtable_pooled_remove, Nat.and_zero]
  simp [pooledRemoveChain, pooledRemoveSlots, pooledMatches, hget0, hL, h0', poolGet,
    emptySlotPooled, Nat.not_le.mpr (pooled_fresh_pool_pos key)]

theorem ptr_put_fresh_nil (v : Nat) :
    (hashtable_ptr_put (hashtable_ptr_create 1) [] v).1 =
      { mask := 0,
        buckets := [[⟨[{ emptySlotPtr with val := v }, emptySlotPtr, emptySlotPtr]⟩]],
        num_elements := 0 } := by
  simp [hashtable_ptr_put, hashtable_ptr_create, growSize, ptrPutChain, ptrPutSlots,
    emptyBucketPtr, emptySlotPtr, strcmp_simd, hash_string, hash_str_crc32]

/-- Claim C10: in the pointer, pooled, and tagged variants, insert stores the
key length as the argument length reduced modulo `2 ^ 16`
(`static_cast<uint16_t>(len)`), while lookup and remove compare the full
untruncated argument length against the stored field: for every key of
length below `2 ^ 16` the stored length equals the argument length, and for
every key of length at least `2 ^ 16` the stored length differs — so on such
a key the lookup immediately following the insert misses (returns
`UINTPTR_MAX`) and remove fails (returns `false`) in all three variants. -/
theorem c10_uint16_length_cast : ∀ key v,
    ptrSlot0Len (hashtable_ptr_put (hashtable_ptr_create 1) key v).1 =
        key.length % 2 ^ 16 ∧
      pooledSlot0Len (hashtable_pooled_put (hashtable_pooled_create 1) key v).1 =
        key.length % 2 ^ 16 ∧
      taggedSlot0Len (hashtable_tagged_put (hashtable_tagged_create 1) key v).1 =
        key.length % 2 ^ 16 ∧
      (key.length % 2 ^ 16 = key.length ↔ key.length < 2 ^ 16) ∧
      (2 ^ 16 ≤ key.length →
        hashtable_ptr_get (hashtable_ptr_put (hashtable_ptr_create 1) key v).1 key =
            UINTPTR_MAX ∧
          (hashtable_ptr_remove (hashtable_ptr_put (hashtable_ptr_create 1) key v).1
            key).2 = false ∧
          hashtable_pooled_get (hashtable_pooled_put (hashtable_pooled_create 1) key v).1
            key = UINTPTR_MAX ∧
          (hashtable_pooled_remove (hashtable_pooled_put (hashtable_pooled_create 1) key
            v).1 key).2 = false ∧
          hashtable_tagged_get (hashtable_tagged_put (hashtable_tagged_create 1) key v).1
            key = UINTPTR_MAX ∧
          (hashtable_tagged_remove (hashtable_tagged_put (hashtable_tagged_create 1) key
            v).1 key).2 = false) := by
  intro key v
  refine ⟨?_, ?_, ?_, ?_, ?_⟩
  · by_cases hz : key = []
    · subst hz
      rw [ptr_put_fresh_nil v]
      simp [ptrSlot0Len, emptySlotPtr]
    · rw [ptr_put_fresh_insert key v
        (fun h => hz (List.eq_nil_of_length_eq_zero h))]
      simp [ptrSlot0Len]
  · rw [pooled_put_fresh key v]
    simp [pooledSlot0Len]
  · rw [tagged_put_fresh key v]
    simp [taggedSlot0Len]
  · constructor
    · intro hEq
      have := Nat.mod_lt key.length (show 0 < 2 ^ 16 by norm_num)
      omega
    · exact Nat.mod_eq_of_lt
  · intro hge
    have hne0 : key.length ≠ 0 := by omega
    have hLne : key.length % 2 ^ 16 ≠ key.length := by
      have := Nat.mod_lt key.length (show 0 < 2 ^ 16 by norm_num)
      omega
    refine ⟨?_, ?_, ?_, ?_, ?_, ?_⟩
    · rw [ptr_put_fresh_insert key v hne0]
      exact ptr_get_fresh_miss key (key.length % 2 ^ 16) v hLne
    · rw [ptr_put_fresh_insert key v hne0]
      exact ptr_remove_fresh_false key (key.length % 2 ^ 16) v hLne hne0
    · rw [pooled_put_fresh key v]
      exact pooled_get_fresh_miss key (key.length % 2 ^ 16) v hLne hne0
    · rw [pooled_put_fresh key v]
      exact pooled_remove_fresh_false key (key.length % 2 ^ 16) v hLne hne0
    · rw [tagged_put_fresh key v]
      exact tagged_get_fresh_miss key (key.length % 2 ^ 16) v hLne
    · rw [tagged_put_fresh key v]
      exact tagged_remove_fresh_false key (key.length % 2 ^ 16) v hLne

/-- Claim C10 (witness): the theorem applied at two concrete inputs — the
one-byte key (length below `2 ^ 16`, stored length exact) and the 65536-byte
key (stored length truncated to 0, lookup after insert misses). -/
theorem c10_uint16_length_cast_witness :
    ptrSlot0Len (hashtable_ptr_put (hashtable_ptr_create 1) [97] 5).1 =
        [97].length % 2 ^ 16 ∧
      (2 ^ 16 ≤ (List.replicate 65536 97).length ∧
        hashtable_ptr_get (hashtable_ptr_put (hashtable_ptr_create 1)
          (List.replicate 65536 97) 5).1 (List.replicate 65536 97) = UINTPTR_MAX) :=
  ⟨(c10_uint16_length_cast [97] 5).1,
    (by rw [List.length_replicate]; norm_num),
    ((c10_uint16_length_cast (List.replicate 65536 97) 5).2.2.2.2
      (by rw [List.length_replicate]; norm_num)).1⟩

theorem bumpCount_slots (b : BucketTagged) : (bumpCount b).slots = b.slots := by
  unfold bumpCount; split <;> rfl

theorem dropCount_slots (b : BucketTagged) : (dropCount b).slots = b.slots := by
  unfold dropCount; split <;> rfl

theorem occT_le_len (b : BucketTagged) : occT b ≤ b.slots.length :=
  List.length_filter_le _ _

theorem occT_full (b : BucketTagged) (h : ¬ taggedHasEmpty b = true) :
    occT b = b.slots.length := by
  unfold occT
  have : b.slots.filter (fun s => s.tag != 0) = b.slots := by
    apply List.filter_eq_self.mpr
    intro s hs
    simp only [taggedHasEmpty, List.any_eq_true, not_exists, not_and] at h
    simp only [bne_iff_ne, ne_eq]
    intro hcon
    exact absurd (by simpa using (h s hs)) (by simp [hcon])
  rw [this]

theorem taggedInsertSlots_len (e : SlotTagged) :
    ∀ l : List SlotTagged, (taggedInsertSlots e l).length = l.length := by
  intro l
  induction l with
  | nil => rfl
  | cons s rest ih =>
    by_cases hz : s.tag = 0
    · rw [taggedInsertSlots, if_pos hz]
      simp
    · rw [taggedInsertSlots, if_neg hz]
      simp [ih]

theorem taggedInsertSlots_occ (e : SlotTagged) (he : e.tag ≠ 0) :
    ∀ l : List SlotTagged, (l.any fun s => s.tag == 0) = true →
      ((taggedInsertSlots e l).filter fun s => s.tag != 0).length =
        (l.filter fun s => s.tag != 0).length + 1 := by
  intro l
  induction l with
  | nil => intro h; cases h
  | cons s rest ih =>
    intro hany
    by_cases hz : s.tag = 0
    · rw [taggedInsertSlots, if_pos hz]
      rw [List.filter_cons, List.filter_cons]
      simp [hz, he]
    · rw [taggedInsertSlots, if_neg hz]
      rw [List.filter_cons, List.filter_cons]
      have hrest : (rest.any fun s => s.tag == 0) = true := by
        simp only [List.any_cons, Bool.or_eq_true, beq_iff_eq] at hany
        rcases hany with h1 | h1
        · exact absurd h1 hz
        · exact h1
      simp [hz, ih hrest]

theorem taggedRemoveSlots_len (tag h : Nat) (key : List Nat) :
    ∀ l l', taggedRemoveSlots tag h key l = some l' → l'.length = l.length := by
  intro l
  induction l with
  | nil => intro l' heq; simp [taggedRemoveSlots] at heq
  | cons s rest ih =>
    intro l' heq
    by_cases hc : taggedMatches tag h key s
    · simp only [taggedRemoveSlots, if_pos hc, Option.some.injEq] at heq
      subst heq
      simp
    · simp only [taggedRemoveSlots, if_neg hc] at heq
      cases hr : taggedRemoveSlots tag h key rest with
      | none => rw [hr] at heq; cases heq
      | some rest' =>
        rw [hr] at heq
        simp only [Option.some.injEq] at heq
        subst heq
        simp [ih rest' hr]

theorem taggedRemoveSlots_occ (tag h : Nat) (key : List Nat) (htag : tag ≠ 0) :
    ∀ l l', taggedRemoveSlots tag h key l = some l' →
      1 ≤ (l.filter fun s => s.tag != 0).length ∧
        (l'.filter fun s => s.tag != 0).length =
          (l.filter fun s => s.tag != 0).length - 1 := by
  intro l
  induction l with
  | nil => intro l' heq; simp [taggedRemoveSlots] at heq
  | cons s rest ih =>
    intro l' heq
    by_cases hc : taggedMatches tag h key s
    · simp only [taggedRemoveSlots, if_pos hc, Option.some.injEq] at heq
      subst heq
      have hstag : s.tag ≠ 0 := by rw [hc.1]; exact htag
      rw [List.filter_cons, List.filter_cons]
      simp [hstag, emptySlotTagged]
    · simp only [taggedRemoveSlots, if_neg hc] at heq
      cases hr : taggedRemoveSlots tag h key rest with
      | none => rw [hr] at heq; cases heq
      | some rest' =>
        rw [hr] at heq
        simp only [Option.some.injEq] at heq
        subst heq
        obtain ⟨h1, h2⟩ := ih rest' hr
        rw [List.filter_cons, List.filter_cons]
        by_cases hz : (s.tag != 0) = true
        · rw [if_pos hz, if_pos hz]
          simp only [List.length_cons]
          omega
        · rw [if_neg hz, if_neg hz]
          exact ⟨h1, h2⟩

theorem taggedInsertSlots_any (e : SlotTagged) (he : e.tag ≠ 0) :
    ∀ l : List SlotTagged, (l.any fun s => s.tag == 0) = true →
      ((taggedInsertSlots e l).any fun s => s.tag != 0) = true := by
  intro l
  induction l with
  | nil => intro h; cases h
  | cons s rest ih =>
    intro hany
    by_cases hz : s.tag = 0
    · rw [taggedInsertSlots, if_pos hz]
      simp [he]
    · rw [taggedInsertSlots, if_neg hz]
      have hrest : (rest.any fun s => s.tag == 0) = true := by
        simp only [List.any_cons, Bool.or_eq_true, beq_iff_eq] at hany
        rcases hany with h1 | h1
        · exact absurd h1 hz
        · exact h1
      simp [ih hrest]

theorem anyOccT_insertGo (e : SlotTagged) (he : e.tag ≠ 0) :
    ∀ l, anyOccT (taggedInsertGo e l).1 = true := by
  intro l
  induction l with
  | nil =>
    rw [taggedInsertGo]
    have : ((taggedInsertSlots e emptyBucketTagged.slots).any fun s => s.tag != 0) = true :=
      taggedInsertSlots_any e he _ (by simp [emptyBucketTagged, emptySlotTagged])
    simp [anyOccT, this]
  | cons b rest ih =>
    by_cases hc : taggedHasEmpty b = true
    · rw [taggedInsertGo, if_pos hc]
      have : ((taggedInsertSlots e b.slots).any fun s => s.tag != 0) = true :=
        taggedInsertSlots_any e he _ (by simpa [taggedHasEmpty] using hc)
      simp [anyOccT, this]
    · rw [taggedInsertGo, if_neg hc]
      simp only [anyOccT, List.any_cons, Bool.or_eq_true]
      right
      simpa [anyOccT] using ih

theorem anyOccT_removeGo_mono (tag h : Nat) (key : List Nat) :
    ∀ l r, taggedRemoveGo tag h key l = some r → anyOccT r.1 = true → anyOccT l = true := by
  intro l r hr hany
  have hpres := taggedRemoveGo_pres (fun s => s.tag ≠ 0 → anyOccT l = true) tag h key
    (by intro hcon; exact absurd rfl hcon) l r hr
    (by intro b hb s hs hstag
        simp only [anyOccT, List.any_eq_true]
        exact ⟨b, hb, s, hs, by simpa using hstag⟩)
  simp only [anyOccT, List.any_eq_true] at hany
  obtain ⟨b', hb', s', hs', hstag⟩ := hany
  exact hpres b' hb' s' hs' (by simpa using hstag)

theorem occL_tags : ∀ l : List SlotTagged,
    (((l.map fun s => s.tag).filter fun t => t != 0)).length =
      (l.filter fun s => s.tag != 0).length := by
  intro l
  induction l with
  | nil => rfl
  | cons s rest ih =>
    rw [List.map_cons, List.filter_cons, List.filter_cons]
    by_cases hz : (s.tag != 0) = true
    · rw [if_pos hz, if_pos hz]
      simp [ih]
    · rw [if_neg hz, if_neg hz]
      exact ih

theorem anyL_tags : ∀ l : List SlotTagged,
    ((l.map fun s => s.tag).any fun t => t != 0) = (l.any fun s => s.tag != 0) := by
  intro l
  induction l with
  | nil => rfl
  | cons s rest ih => simp [ih]

theorem occT_congr (b b' : BucketTagged)
    (htags : (b'.slots.map fun s => s.tag) = b.slots.map fun s => s.tag) :
    occT b' = occT b := by
  unfold occT
  rw [← occL_tags b.slots, ← occL_tags b'.slots, htags]

theorem anyOccT_congr (R : BucketTagged → BucketTagged → Prop)
    (hR : ∀ b b', R b b' → (b'.slots.map fun s => s.tag) = b.slots.map fun s => s.tag) :
    ∀ l l', List.Forall₂ R l l' → anyOccT l' = anyOccT l := by
  intro l l' hf
  induction hf with
  | nil => rfl
  | @cons x y l₁ l₂ hbb htail ih =>
    simp only [anyOccT, List.any_cons] at ih ⊢
    have h1 : (y.slots.any fun s => s.tag != 0) = (x.slots.any fun s => s.tag != 0) := by
      rw [← anyL_tags, hR x y hbb, anyL_tags]
    rw [h1, ih]

theorem taggedUpdateSlots_mapTags (tag h : Nat) (key : List Nat) (v : Nat) :
    ∀ l l', taggedUpdateSlots tag h key v l = some l' →
      (l'.map fun s => s.tag) = l.map fun s => s.tag := by
  intro l
  induction l with
  | nil => intro l' heq; simp [taggedUpdateSlots] at heq
  | cons s rest ih =>
    intro l' heq
    by_cases hc : taggedMatches tag h key s
    · simp only [taggedUpdateSlots, if_pos hc, Option.some.injEq] at heq
      subst heq
      rfl
    · simp only [taggedUpdateSlots, if_neg hc] at heq
      cases hr : taggedUpdateSlots tag h key v rest with
      | none => rw [hr] at heq; cases heq
      | some rest' =>
        rw [hr] at heq
        simp only [Option.some.injEq] at heq
        subst heq
        simp [ih rest' hr]

theorem forall₂_shape_refl :
    ∀ l : List BucketTagged,
      List.Forall₂ (fun b b' : BucketTagged => b'.count = b.count ∧
        ((b'.slots.map fun s => s.tag) = b.slots.map fun s => s.tag)) l l := by
  intro l
  induction l with
  | nil => exact List.Forall₂.nil
  | cons b rest ih => exact List.Forall₂.cons ⟨rfl, rfl⟩ ih

theorem taggedUpdateChain_shape (tag h : Nat) (key : List Nat) (v : Nat) :
    ∀ l l', taggedUpdateChain tag h key v l = some l' →
      List.Forall₂ (fun b b' : BucketTagged => b'.count = b.count ∧
        ((b'.slots.map fun s => s.tag) = b.slots.map fun s => s.tag)) l l' := by
  intro l
  induction l with
  | nil => intro l' heq; simp [taggedUpdateChain] at heq
  | cons b rest ih =>
    intro l' heq
    cases hs : taggedUpdateSlots tag h key v b.slots with
    | some slots' =>
      rw [taggedUpdateChain, hs] at heq
      simp only [Option.some.injEq] at heq
      subst heq
      exact List.Forall₂.cons ⟨rfl, taggedUpdateSlots_mapTags tag h key v b.slots slots' hs⟩
        (forall₂_shape_refl rest)
    | none =>
      rw [taggedUpdateChain, hs] at heq
      cases hr : taggedUpdateChain tag h key v rest with
      | none => rw [hr] at heq; cases heq
      | some rest' =>
        rw [hr] at heq
        simp only [Option.some.injEq] at heq
        subst heq
        exact List.Forall₂.cons ⟨rfl, rfl⟩ (ih rest' hr)

theorem chainDemand_congr :
    ∀ l l', List.Forall₂ (fun b b' : BucketTagged => b'.count = b.count ∧
        ((b'.slots.map fun s => s.tag) = b.slots.map fun s => s.tag)) l l' →
      chainDemand l' = chainDemand l := by
  intro l l' hf
  cases hf with
  | nil => rfl
  | @cons x y l₁ l₂ hbb htail =>
    simp only [chainDemand]
    rw [occT_congr x y hbb.2,
      anyOccT_congr _ (fun b b' hb => hb.2) l₁ l₂ htail]

theorem invChainT_shape :
    ∀ l l', List.Forall₂ (fun b b' : BucketTagged => b'.count = b.count ∧
        ((b'.slots.map fun s => s.tag) = b.slots.map fun s => s.tag)) l l' →
      InvChainT l → InvChainT l' := by
  intro l l' hf
  induction hf with
  | nil => intro h; exact h
  | @cons x y l₁ l₂ hbb htail ih =>
    intro hinv
    exact ⟨by rw [chainDemand_congr l₁ l₂ htail, hbb.1]; exact hinv.1, ih hinv.2⟩

theorem wfChainT_shape :
    ∀ l l', List.Forall₂ (fun b b' : BucketTagged => b'.count = b.count ∧
        ((b'.slots.map fun s => s.tag) = b.slots.map fun s => s.tag)) l l' →
      WFChainT l → WFChainT l' := by
  intro l l' hf
  induction hf with
  | nil => intro h; exact h
  | @cons x y l₁ l₂ hbb htail ih =>
    intro hwf b' hb'
    rcases List.mem_cons.mp hb' with h1 | h1
    · subst h1
      have := congrArg List.length hbb.2
      simp only [List.length_map] at this
      rw [this]
      exact hwf x (List.mem_cons_self x l₁)
    · exact ih (fun t ht => hwf t (List.mem_cons_of_mem x ht)) b' h1

theorem chainDemand_le_of_WF (l : List BucketTagged) (hwf : WFChainT l) :
    chainDemand l ≤ 5 := by
  cases l with
  | nil => simp [chainDemand]
  | cons b rest =>
    simp only [chainDemand]
    have h1 : occT b ≤ 4 := by
      have := occT_le_len b
      have := hwf b (List.mem_cons_self b rest)
      omega
    by_cases h2 : anyOccT rest = true <;> simp [h2] <;> omega

theorem occT_bump (b : BucketTagged) : occT (bumpCount b) = occT b := by
  unfold occT
  rw [bumpCount_slots]

theorem occT_drop (b : BucketTagged) : occT (dropCount b) = occT b := by
  unfold occT
  rw [dropCount_slots]

theorem chainDemand_insertGo (e : SlotTagged) (he : e.tag ≠ 0) :
    ∀ l, chainDemand (taggedInsertGo e l).1 ≤ chainDemand l + 1 := by
  intro l
  cases l with
  | nil =>
    rw [taggedInsertGo]
    have hocc : occT { emptyBucketTagged with
        slots := taggedInsertSlots e emptyBucketTagged.slots } = 1 := by
      show ((taggedInsertSlots e emptyBucketTagged.slots).filter
        fun s => s.tag != 0).length = 1
      rw [taggedInsertSlots_occ e he _ (by simp [emptyBucketTagged, emptySlotTagged])]
      simp [emptyBucketTagged, emptySlotTagged]
    simp [chainDemand, hocc, anyOccT]
  | cons b rest =>
    by_cases hc : taggedHasEmpty b = true
    · rw [taggedInsertGo, if_pos hc]
      have hocc : occT { b with slots := taggedInsertSlots e b.slots } = occT b + 1 := by
        show ((taggedInsertSlots e b.slots).filter fun s => s.tag != 0).length = occT b + 1
        exact taggedInsertSlots_occ e he b.slots (by simpa [taggedHasEmpty] using hc)
      simp only [chainDemand, hocc]
      omega
    · rw [taggedInsertGo, if_neg hc]
      have hocc : occT (if (taggedInsertGo e rest).2 then bumpCount (bumpCount b)
          else bumpCount b) = occT b := by
        by_cases hf : (taggedInsertGo e rest).2 = true
        · rw [if_pos hf, occT_bump, occT_bump]
        · rw [if_neg hf, occT_bump]
      have hany : anyOccT (taggedInsertGo e rest).1 = true := anyOccT_insertGo e he rest
      simp only [chainDemand, hocc, hany, if_pos]
      by_cases h2 : anyOccT rest = true <;> simp [h2]

theorem chainDemand_removeGo (tag h : Nat) (key : List Nat) (htag : tag ≠ 0) :
    ∀ l r, taggedRemoveGo tag h key l = some r →
      chainDemand r.1 + (if r.2 = true then 1 else 0) ≤ chainDemand l := by
  intro l r hr
  cases l with
  | nil => simp [taggedRemoveGo] at hr
  | cons b rest =>
    cases hs : taggedRemoveSlots tag h key b.slots with
    | some slots' =>
      rw [taggedRemoveGo, hs] at hr
      simp only [Option.some.injEq] at hr
      subst hr
      obtain ⟨hge, hocc'⟩ := taggedRemoveSlots_occ tag h key htag b.slots slots' hs
      have hocc : occT { b with slots := slots' } = occT b - 1 := hocc'
      have hgeb : 1 ≤ occT b := hge
      simp only [chainDemand, hocc, if_pos rfl]
      by_cases h2 : anyOccT rest = true <;> simp [h2] <;> omega
    | none =>
      rw [taggedRemoveGo, hs] at hr
      cases hrg : taggedRemoveGo tag h key rest with
      | none => rw [hrg] at hr; cases hr
      | some r2 =>
        rw [hrg] at hr
        simp only [Option.some.injEq] at hr
        subst hr
        have hocc : occT (if r2.2 then dropCount b else b) = occT b := by
          by_cases hf : r2.2 = true
          · rw [if_pos hf, occT_drop]
          · rw [if_neg hf]
        simp only [chainDemand, hocc, if_neg (by simp : ¬ (false = true))]
        have hmono : anyOccT r2.1 = true → anyOccT rest = true :=
          anyOccT_removeGo_mono tag h key rest r2 hrg
        by_cases h2 : anyOccT r2.1 = true
        · rw [if_pos h2, if_pos (hmono h2)]
        · rw [if_neg h2]
          by_cases h3 : anyOccT rest = true <;> simp [h3]

theorem bump_ge (b : BucketTagged) : b.count ≤ (bumpCount b).count := by
  unfold bumpCount
  by_cases hc : b.count < 255
  · rw [if_pos hc]
    show b.count ≤ b.count + 1
    omega
  · rw [if_neg hc]

theorem bump_ge_min (b : BucketTagged) : min (b.count + 1) 255 ≤ (bumpCount b).count := by
  unfold bumpCount
  by_cases hc : b.count < 255
  · rw [if_pos hc]
    show min (b.count + 1) 255 ≤ b.count + 1
    omega
  · rw [if_neg hc]
    show min (b.count + 1) 255 ≤ b.count
    omega

theorem drop_count (b : BucketTagged) : (dropCount b).count = b.count - 1 := by
  unfold dropCount
  by_cases hc : 0 < b.count
  · rw [if_pos hc]
  · rw [if_neg hc]
    show b.count = b.count - 1
    omega

theorem taggedInsertGo_inv (e : SlotTagged) (he : e.tag ≠ 0) :
    ∀ l, WFChainT l → InvChainT l →
      WFChainT (taggedInsertGo e l).1 ∧ InvChainT (taggedInsertGo e l).1 := by
  intro l
  induction l with
  | nil =>
    intro _ _
    constructor
    · intro b hb
      simp only [taggedInsertGo, List.mem_singleton] at hb
      subst hb
      show (taggedInsertSlots e emptyBucketTagged.slots).length = 4
      rw [taggedInsertSlots_len]
      rfl
    · exact ⟨by simp [chainDemand], trivial⟩
  | cons b rest ih =>
    intro hwf hinv
    obtain ⟨hd, hrest⟩ := hinv
    have hwfrest : WFChainT rest := fun t ht => hwf t (List.mem_cons_of_mem b ht)
    by_cases hc : taggedHasEmpty b = true
    · rw [taggedInsertGo, if_pos hc]
      constructor
      · intro b' hb'
        rcases List.mem_cons.mp hb' with h1 | h1
        · subst h1
          show (taggedInsertSlots e b.slots).length = 4
          rw [taggedInsertSlots_len]
          exact hwf b (List.mem_cons_self b rest)
        · exact hwfrest b' h1
      · exact ⟨hd, hrest⟩
    · rw [taggedInsertGo, if_neg hc]
      obtain ⟨hwf', hinv'⟩ := ih hwfrest hrest
      have hdem : chainDemand (taggedInsertGo e rest).1 ≤ chainDemand rest + 1 :=
        chainDemand_insertGo e he rest
      have hdem5 : chainDemand (taggedInsertGo e rest).1 ≤ 5 :=
        chainDemand_le_of_WF _ hwf'
      have hslots : (if (taggedInsertGo e rest).2 then bumpCount (bumpCount b)
          else bumpCount b).slots = b.slots := by
        by_cases hf : (taggedInsertGo e rest).2 = true
        · rw [if_pos hf, bumpCount_slots, bumpCount_slots]
        · rw [if_neg hf, bumpCount_slots]
      constructor
      · intro b' hb'
        rcases List.mem_cons.mp hb' with h1 | h1
        · rw [h1, hslots]
          exact hwf b (List.mem_cons_self b rest)
        · exact hwf' b' h1
      · refine ⟨?_, hinv'⟩
        by_cases hf : (taggedInsertGo e rest).2 = true
        · rw [if_pos hf]
          have e1 := bump_ge_min b
          have e2 := bump_ge_min (bumpCount b)
          omega
        · rw [if_neg hf]
          have e1 := bump_ge_min b
          omega

theorem taggedRemoveGo_inv (tag h : Nat) (key : List Nat) (htag : tag ≠ 0) :
    ∀ l r, taggedRemoveGo tag h key l = some r → WFChainT l → InvChainT l →
      WFChainT r.1 ∧ InvChainT r.1 := by
  intro l
  induction l with
  | nil => intro r hr; simp [taggedRemoveGo] at hr
  | cons b rest ih =>
    intro r hr hwf hinv
    obtain ⟨hd, hrest⟩ := hinv
    have hwfrest : WFChainT rest := fun t ht => hwf t (List.mem_cons_of_mem b ht)
    cases hs : taggedRemoveSlots tag h key b.slots with
    | some slots' =>
      rw [taggedRemoveGo, hs] at hr
      simp only [Option.some.injEq] at hr
      subst hr
      constructor
      · intro b' hb'
        rcases List.mem_cons.mp hb' with h1 | h1
        · rw [h1]
          show slots'.length = 4
          rw [taggedRemoveSlots_len tag h key b.slots slots' hs]
          exact hwf b (List.mem_cons_self b rest)
        · exact hwfrest b' h1
      · exact ⟨hd, hrest⟩
    | none =>
      rw [taggedRemoveGo, hs] at hr
      cases hrg : taggedRemoveGo tag h key rest with
      | none => rw [hrg] at hr; cases hr
      | some r2 =>
        rw [hrg] at hr
        simp only [Option.some.injEq] at hr
        subst hr
        obtain ⟨hwf', hinv'⟩ := ih r2 hrg hwfrest hrest
        have hdr := chainDemand_removeGo tag h key htag rest r2 hrg
        constructor
        · intro b' hb'
          rcases List.mem_cons.mp hb' with h1 | h1
          · rw [h1]
            have hslots : (if r2.2 then dropCount b else b).slots = b.slots := by
              by_cases hf : r2.2 = true
              · rw [if_pos hf, dropCount_slots]
              · rw [if_neg hf]
            rw [hslots]
            exact hwf b (List.mem_cons_self b rest)
          · exact hwf' b' h1
        · refine ⟨?_, hinv'⟩
          by_cases hf : r2.2 = true
          · rw [if_pos hf]
            rw [if_pos hf] at hdr
            have := drop_count b
            omega
          · rw [if_neg hf]
            rw [if_neg hf] at hdr
            omega

theorem taggedUpdateChain_inv (tag h : Nat) (key : List Nat) (v : Nat)
    (l l' : List BucketTagged) (heq : taggedUpdateChain tag h key v l = some l')
    (hwf : WFChainT l) (hinv : InvChainT l) : WFChainT l' ∧ InvChainT l' := by
  have hshape := taggedUpdateChain_shape tag h key v l l' heq
  exact ⟨wfChainT_shape l l' hshape hwf, invChainT_shape l l' hshape hinv⟩

theorem invChainT_zero_count (b : BucketTagged) (rest : List BucketTagged)
    (hinv : InvChainT (b :: rest)) (hz : b.count = 0) :
    ∀ b' ∈ rest, ∀ s ∈ b'.slots, s.tag = 0 := by
  obtain ⟨hd, -⟩ := hinv
  rw [hz, Nat.le_zero] at hd
  cases rest with
  | nil => intro b' hb'; cases hb'
  | cons rb rrest =>
    simp only [chainDemand] at hd
    have hocc : occT rb = 0 := by
      by_cases h2 : anyOccT rrest = true <;> simp [h2] at hd <;> omega
    have hany : anyOccT rrest = false := by
      by_cases h2 : anyOccT rrest = true
      · simp [h2] at hd
      · simpa using h2
    intro b' hb' s hs
    rcases List.mem_cons.mp hb' with h1 | h1
    · rw [h1] at hs
      have hfil : rb.slots.filter (fun s => s.tag != 0) = [] :=
        List.length_eq_zero.mp hocc
      have := List.filter_eq_nil.mp hfil s hs
      simpa using this
    · have h2 := hany
      simp only [anyOccT, List.any_eq_false] at h2
      have h3 : (b'.slots.any fun s => s.tag != 0) = false := by
        rcases Bool.eq_false_or_eq_true (b'.slots.any fun s => s.tag != 0) with hf | ht
        · exact absurd hf (h2 b' h1)
        · exact ht
      have h4 := List.any_eq_false.mp h3 s hs
      simpa using h4

theorem getChainFull_allzero (tag h : Nat) (key : List Nat) (htag : tag ≠ 0) :
    ∀ l, (∀ b ∈ l, ∀ s ∈ b.slots, s.tag = 0) →
      taggedGetChainFull tag h key l = UINTPTR_MAX := by
  intro l
  induction l with
  | nil => intro _; rfl
  | cons b rest ih =>
    intro hP
    rw [taggedGetChainFull, taggedGetSlots_none_of_nomatch tag h key b.slots
      (by intro s hs
          rintro ⟨h1, -, -⟩
          exact htag (by rw [← h1]; exact hP b (List.mem_cons_self b rest) s hs))]
    exact ih (fun t ht => hP t (List.mem_cons_of_mem b ht))

theorem taggedGetChain_eq_full (tag h : Nat) (key : List Nat) (htag : tag ≠ 0) :
    ∀ l, InvChainT l → taggedGetChain tag h key l = taggedGetChainFull tag h key l := by
  intro l
  induction l with
  | nil => intro _; rfl
  | cons b rest ih =>
    intro hinv
    cases hs : taggedGetSlots tag h key b.slots with
    | some v => rw [taggedGetChain, taggedGetChainFull, hs]
    | none =>
      rw [taggedGetChain, taggedGetChainFull, hs]
      by_cases hz : b.count = 0
      · rw [if_pos hz]
        rw [getChainFull_allzero tag h key htag rest
          (invChainT_zero_count b rest hinv hz)]
      · rw [if_neg hz]
        exact ih hinv.2

theorem invChainT_suffix : ∀ pre l : List BucketTagged, InvChainT (pre ++ l) → InvChainT l := by
  intro pre
  induction pre with
  | nil => intro l h; exact h
  | cons b rest ih => intro l h; exact ih l h.2

theorem reachableTagged_inv :
    ∀ ht, ReachableTagged ht →
      ∀ idx, WFChainT (ht.buckets.getD idx []) ∧ InvChainT (ht.buckets.getD idx []) := by
  intro ht hr
  induction hr with
  | create capacity =>
    intro idx
    simp only [hashtable_tagged_create]
    rw [getD_replicate]
    by_cases hlt : idx < growSize ((capacity + 4 - 1) / 4 + 1) 1 ((capacity + 4 - 1) / 4)
    · rw [if_pos hlt]
      constructor
      · intro b hb
        simp only [List.mem_singleton] at hb
        subst hb
        rfl
      · exact ⟨by simp [chainDemand], trivial⟩
    · rw [if_neg hlt]
      exact ⟨fun b hb => absurd hb (List.not_mem_nil b), trivial⟩
  | put ht' key v _hr ih =>
    intro idx
    simp only [hashtable_tagged_put]
    cases hu : taggedUpdateChain (taggedTag (hash_string key)) (hash_string key) key v
        (ht'.buckets.getD (hash_string key &&& ht'.mask) []) with
    | some chain' =>
      simp only [hu]
      rw [getD_set_ite]
      by_cases hc : idx = (hash_string key &&& ht'.mask) ∧
          (hash_string key &&& ht'.mask) < ht'.buckets.length
      · rw [if_pos hc]
        have := taggedUpdateChain_inv _ _ key v _ chain' hu
          (ih (hash_string key &&& ht'.mask)).1 (ih (hash_string key &&& ht'.mask)).2
        exact this
      · rw [if_neg hc]
        exact ih idx
    | none =>
      simp only [hu]
      rw [getD_set_ite]
      by_cases hc : idx = (hash_string key &&& ht'.mask) ∧
          (hash_string key &&& ht'.mask) < ht'.buckets.length
      · rw [if_pos hc]
        refine taggedInsertGo_inv _ ?_ _ (ih (hash_string key &&& ht'.mask)).1
          (ih (hash_string key &&& ht'.mask)).2
        show taggedTag (hash_string key) ≠ 0
        have := (taggedTag_bound (hash_string key)).1
        omega
      · rw [if_neg hc]
        exact ih idx
  | remove ht' key _hr ih =>
    intro idx
    simp only [hashtable_tagged_remove]
    cases hrg : taggedRemoveGo (taggedTag (hash_string key)) (hash_string key) key
        (ht'.buckets.getD (hash_string key &&& ht'.mask) []) with
    | some r =>
      simp only [hrg]
      rw [getD_set_ite]
      by_cases hc : idx = (hash_string key &&& ht'.mask) ∧
          (hash_string key &&& ht'.mask) < ht'.buckets.length
      · rw [if_pos hc]
        refine taggedRemoveGo_inv _ _ key ?_ _ r hrg
          (ih (hash_string key &&& ht'.mask)).1 (ih (hash_string key &&& ht'.mask)).2
        have := (taggedTag_bound (hash_string key)).1
        omega
      · rw [if_neg hc]
        exact ih idx
    | none =>
      simp only [hrg]
      exact ih idx

/-- Claim C2: in the tagged variant, for every table reachable by any
sequence of inserts and removes, lookup's early exit (returning
`UINTPTR_MAX` when a scanned bucket's outbound-overflow-count is zero
instead of following `next`) never changes the result of lookup — in
particular it never reports NOT_FOUND for a key present in the chain — and
a zero count indeed implies that no key of that chain is stored in any
bucket past that one.  Insert's bookkeeping guarantees this: the second pass
of `hashtable_tagged_put` increments the count of every full bucket it
passes through and of the insertion bucket's predecessor, and remove
decrements only the predecessor of the bucket it clears, keeping every
count at or above the number of keys stored past it. -/
theorem c2_tagged_early_exit_sound :
    ∀ ht, ReachableTagged ht →
      (∀ key, hashtable_tagged_get ht key = hashtable_tagged_get_full ht key) ∧
      (∀ idx pre b post, ht.buckets.getD idx [] = pre ++ b :: post → b.count = 0 →
        ∀ b' ∈ post, ∀ s ∈ b'.slots, s.tag = 0) := by
  intro ht hr
  have hinv := reachableTagged_inv ht hr
  constructor
  · intro key
    have htag : taggedTag (hash_string key) ≠ 0 := by
      have := (taggedTag_bound (hash_string key)).1
      omega
    exact taggedGetChain_eq_full _ _ key htag _
      (hinv (hash_string key &&& ht.mask)).2
  · intro idx pre b post hchain hz
    have h1 : InvChainT (pre ++ b :: post) := by
      rw [← hchain]
      exact (hinv idx).2
    exact invChainT_zero_count b post (invChainT_suffix pre _ h1) hz

/-- Claim C2 (witness): the theorem at a concrete reachable table — one
insert into a freshly created one-bucket table — comparing the real lookup
of an absent key against the full-scan reference lookup. -/
theorem c2_tagged_early_exit_sound_witness :
    hashtable_tagged_get (hashtable_tagged_put (hashtable_tagged_create 1) [97] 5).1 [98] =
      hashtable_tagged_get_full (hashtable_tagged_put (hashtable_tagged_create 1)
        [97] 5).1 [98] :=
  (c2_tagged_early_exit_sound (hashtable_tagged_put (hashtable_tagged_create 1) [97] 5).1
    (ReachableTagged.put (hashtable_tagged_create 1) [97] 5
      (ReachableTagged.create 1))).1 [98]

theorem ptrPutSlots_none_val (h : Nat) (key : List Nat) (v1 v2 : Nat) :
    ∀ l, ptrPutSlots h key v1 l = none → ptrPutSlots h key v2 l = none := by
  intro l
  induction l with
  | nil => intro _; rfl
  | cons s rest ih =>
    intro heq
    by_cases hc : s.key_hash = h ∧ s.key_len = key.length ∧
        strcmp_simd key s.key_ptr key.length = 0
    · rw [ptrPutSlots, if_pos hc] at heq; cases heq
    · by_cases hz : s.key_hash = 0
      · rw [ptrPutSlots, if_neg hc, if_pos hz] at heq; cases heq
      · rw [ptrPutSlots, if_neg hc, if_neg hz] at heq
        rw [ptrPutSlots, if_neg hc, if_neg hz]
        cases hr : ptrPutSlots h key v1 rest with
        | none => rw [ih hr]
        | some r =>
          obtain ⟨r1, r2⟩ := r
          rw [hr] at heq
          cases heq

theorem ptrPutSlots_put_put (h : Nat) (key : List Nat) (v1 v2 : Nat)
    (hlen : key.length < 2 ^ 16) :
    ∀ l l' ins, ptrPutSlots h key v1 l = some (l', ins) →
      ∃ l'', ptrPutSlots h key v2 l' = some (l'', false) := by
  intro l
  induction l with
  | nil => intro l' ins heq; simp [ptrPutSlots] at heq
  | cons s rest ih =>
    intro l' ins heq
    by_cases hc : s.key_hash = h ∧ s.key_len = key.length ∧
        strcmp_simd key s.key_ptr key.length = 0
    · rw [ptrPutSlots, if_pos hc] at heq
      simp only [Option.some.injEq, Prod.mk.injEq] at heq
      rw [← heq.1]
      have hc' : ({ s with val := v1 } : SlotPtr).key_hash = h ∧
          ({ s with val := v1 } : SlotPtr).key_len = key.length ∧
          strcmp_simd key ({ s with val := v1 } : SlotPtr).key_ptr key.length = 0 := hc
      exact ⟨_, by rw [ptrPutSlots, if_pos hc']⟩
    · by_cases hz : s.key_hash = 0
      · rw [ptrPutSlots, if_neg hc, if_pos hz] at heq
        simp only [Option.some.injEq, Prod.mk.injEq] at heq
        rw [← heq.1]
        have hc' : (⟨h, key, key.length % 2 ^ 16, v1⟩ : SlotPtr).key_hash = h ∧
            (⟨h, key, key.length % 2 ^ 16, v1⟩ : SlotPtr).key_len = key.length ∧
            strcmp_simd key (⟨h, key, key.length % 2 ^ 16, v1⟩ : SlotPtr).key_ptr
              key.length = 0 :=
          ⟨rfl, Nat.mod_eq_of_lt hlen, (strcmp_simd_eq_zero key key key.length).mpr rfl⟩
        exact ⟨_, by rw [ptrPutSlots, if_pos hc']⟩
      · rw [ptrPutSlots, if_neg hc, if_neg hz] at heq
        cases hr : ptrPutSlots h key v1 rest with
        | none => rw [hr] at heq; cases heq
        | some r =>
          obtain ⟨rest1, ins1⟩ := r
          rw [hr] at heq
          simp only [Option.some.injEq, Prod.mk.injEq] at heq
          rw [← heq.1]
          obtain ⟨rest2, hr2⟩ := ih rest1 ins1 hr
          exact ⟨s :: rest2, by rw [ptrPutSlots, if_neg hc, if_neg hz, hr2]⟩

theorem ptrPutChain_put_put (h : Nat) (key : List Nat) (v1 v2 : Nat)
    (hlen : key.length < 2 ^ 16) :
    ∀ l, (ptrPutChain h key v2 (ptrPutChain h key v1 l).1).2 = false := by
  intro l
  induction l with
  | nil =>
    rcases ptrPutSlots_cons_empty h key v1 [emptySlotPtr, emptySlotPtr] with ⟨r, hr⟩
    have hr' : ptrPutSlots h key v1 emptyBucketPtr.slots = some r := by
      simpa [emptyBucketPtr, List.replicate] using hr
    obtain ⟨r1, r2⟩ := r
    rw [ptrPutChain, hr']
    obtain ⟨r3, hr3⟩ := ptrPutSlots_put_put h key v1 v2 hlen _ r1 r2 hr'
    show (ptrPutChain h key v2 [⟨r1⟩]).2 = false
    have hs2 : ptrPutSlots h key v2 (⟨r1⟩ : BucketPtr).slots = some (r3, false) := hr3
    rw [ptrPutChain, hs2]
  | cons b rest ih =>
    cases hs : ptrPutSlots h key v1 b.slots with
    | some r =>
      obtain ⟨r1, r2⟩ := r
      rw [ptrPutChain, hs]
      obtain ⟨r3, hr3⟩ := ptrPutSlots_put_put h key v1 v2 hlen _ r1 r2 hs
      show (ptrPutChain h key v2 (⟨r1⟩ :: rest)).2 = false
      have hs2 : ptrPutSlots h key v2 (⟨r1⟩ : BucketPtr).slots = some (r3, false) := hr3
      rw [ptrPutChain, hs2]
    | none =>
      rw [ptrPutChain, hs]
      show (ptrPutChain h key v2 (b :: (ptrPutChain h key v1 rest).1)).2 = false
      rw [ptrPutChain, ptrPutSlots_none_val h key v1 v2 b.slots hs]
      exact ih

theorem hashtable_ptr_put_put (ht : HashtablePtr) (key : List Nat) (v1 v2 : Nat)
    (hmask : ht.mask < ht.buckets.length) (hlen : key.length < 2 ^ 16) :
    (hashtable_ptr_put (hashtable_ptr_put ht key v1).1 key v2).1.num_elements =
      (hashtable_ptr_put ht key v1).1.num_elements := by
  have hidx : hash_string key &&& ht.mask < ht.buckets.length :=
    Nat.lt_of_le_of_lt Nat.and_le_right hmask
  simp only [hashtable_ptr_put]
  have hcond : (hash_string key &&& ht.mask) = (hash_string key &&& ht.mask) ∧
      hash_string key &&& ht.mask < ht.buckets.length := ⟨rfl, hidx⟩
  rw [getD_set_ite, if_pos hcond]
  rw [ptrPutChain_put_put (hash_string key) key v1 v2 hlen]
  simp

theorem ptr_put_dup_short (key : List Nat) (v1 v2 : Nat)
    (hlen : key.length % 2 ^ 16 ≠ key.length) :
    (hashtable_ptr_put
      { mask := 0,
        buckets := [[⟨[⟨hash_string key, key, key.length % 2 ^ 16, v1⟩,
          emptySlotPtr, emptySlotPtr]⟩]],
        num_elements := 1 } key v2).1.num_elements = 2 := by
  simp only [hashtable_ptr_put, Nat.and_zero]
  have hlen' : ¬ key.length < 65536 := by omega
  by_cases hz : hash_string key = 0
  · simp [ptrPutChain, ptrPutSlots, hlen, hlen', hz, emptySlotPtr]
  · have hz' : (0 : Nat) ≠ hash_string key := Ne.symm hz
    simp [ptrPutChain, ptrPutSlots, hlen, hlen', hz, hz', emptySlotPtr]

/-- Claim C3 (counterexample): the claim quantifies over every key; for the
pointer variant and the 65536-byte key `'a' * 65536`, the first insert stores
the length as `static_cast<uint16_t>(65536) = 0`, so the second insert of the
very same key fails the `key_len == len` comparison on the occupied slot,
falls through to an empty slot, and inserts a second entry: the element count
rises from 1 to 2 instead of staying at 1. -/
theorem c3_update_count_cex :
    (hashtable_ptr_put (hashtable_ptr_put (hashtable_ptr_create 1)
        (List.replicate 65536 97) 1).1 (List.replicate 65536 97) 2).1.num_elements ≠
      (hashtable_ptr_put (hashtable_ptr_create 1)
        (List.replicate 65536 97) 1).1.num_elements := by
  have hKlen : (List.replicate (65536 : Nat) 97).length = 65536 :=
    List.length_replicate 65536 97
  rw [ptr_put_fresh_insert (List.replicate 65536 97) 1 (by rw [hKlen]; norm_num)]
  rw [ptr_put_dup_short (List.replicate 65536 97) 1 2 (by rw [hKlen]; norm_num)]
  decide

/-- Claim C3 (amended): for the pointer variant, on any table whose mask
indexes into the bucket array and any key shorter than 2^16 bytes (so the
`uint16_t` cast of the length is lossless), inserting `(k, v1)` and then
`(k, v2)` is an in-place update: the element count after the second insert
equals the count after the first, and lookup of `k` then returns `v2`. -/
theorem c3_update_amended (ht : HashtablePtr) (key : List Nat) (v1 v2 : Nat)
    (hmask : ht.mask < ht.buckets.length) (hlen : key.length < 2 ^ 16) :
    (hashtable_ptr_put (hashtable_ptr_put ht key v1).1 key v2).1.num_elements =
        (hashtable_ptr_put ht key v1).1.num_elements ∧
      hashtable_ptr_get (hashtable_ptr_put (hashtable_ptr_put ht key v1).1 key v2).1
        key = v2 := by
  constructor
  · exact hashtable_ptr_put_put ht key v1 v2 hmask hlen
  · have hm1 : (hashtable_ptr_put ht key v1).1.mask <
        (hashtable_ptr_put ht key v1).1.buckets.length := by
      simpa [hashtable_ptr_put] using hmask
    exact hashtable_ptr_roundtrip _ key v2 hm1 hlen

/-- Witness for the amended C3 statement at a concrete input. -/
theorem c3_update_amended_witness :
    (hashtable_ptr_create 4).mask < (hashtable_ptr_create 4).buckets.length ∧
      ([107] : List Nat).length < 2 ^ 16 ∧
      ((hashtable_ptr_put (hashtable_ptr_put (hashtable_ptr_create 4) [107] 5).1
            [107] 6).1.num_elements =
          (hashtable_ptr_put (hashtable_ptr_create 4) [107] 5).1.num_elements ∧
        hashtable_ptr_get (hashtable_ptr_put (hashtable_ptr_put
          (hashtable_ptr_create 4) [107] 5).1 [107] 6).1 [107] = 6) :=
  ⟨by decide, by decide,
    c3_update_amended (hashtable_ptr_create 4) [107] 5 6 (by decide) (by decide)⟩

/-- Claim C1 (amended): for the pointer variant, round-trip holds on any
table whose mask indexes into the bucket array once the key is shorter than
2^16 bytes, so that the stored `uint16_t` length equals the argument length:
`lookup(insert(T, k, v), k) = v`. -/
theorem c1_roundtrip_amended (ht : HashtablePtr) (key : List Nat) (v : Nat)
    (hmask : ht.mask < ht.buckets.length) (hlen : key.length < 2 ^ 16) :
    hashtable_ptr_get (hashtable_ptr_put ht key v).1 key = v :=
  hashtable_ptr_roundtrip ht key v hmask hlen

/-- Witness for the amended C1 statement at a concrete input. -/
theorem c1_roundtrip_amended_witness :
    (hashtable_ptr_create 4).mask < (hashtable_ptr_create 4).buckets.length ∧
      ([104, 105] : List Nat).length < 2 ^ 16 ∧
      hashtable_ptr_get (hashtable_ptr_put (hashtable_ptr_create 4)
        [104, 105] 42).1 [104, 105] = 42 :=
  ⟨by decide, by decide,
    c1_roundtrip_amended (hashtable_ptr_create 4) [104, 105] 42 (by decide) (by decide)⟩
